import Mathlib

/-!
Verification development for the sparse-blobpool discrete-event simulator.

The definitions below are shallow embeddings of the Python sources:
  * `sparse_blobpool/pool/blobpool.py`  (Blobpool, RBF, eviction)
  * `sparse_blobpool/core/events.py`, `core/simulator.py`, `core/actor.py`
    (Event ordering, heapq scheduling, run loop)
  * `sparse_blobpool/core/network.py`   (CoDel virtual queue)
  * `sparse_blobpool/actors/block_producer.py` (block assembly)
  * `sparse_blobpool/p2p/node.py`       (Cells handling, request timeouts)

Python `dict`s are modelled as insertion-ordered association lists (Python
dicts preserve insertion order; updating an existing key keeps its slot,
inserting a new key appends).  Python `int` is `Int` (with `Int.fdiv` for
`//`), `float` timestamps are `Rat`, and the CPython `heapq` algorithms are
transcribed literally.
-/

namespace SBP

/-! ## Insertion-ordered dictionaries (Python `dict`) -/

def dictGet {K V : Type} [DecidableEq K] : List (K × V) → K → Option V
  | [], _ => none
  | (k', v) :: rest, k => if k' = k then some v else dictGet rest k

def dictSet {K V : Type} [DecidableEq K] : List (K × V) → K → V → List (K × V)
  | [], k, v => [(k, v)]
  | (k', v') :: rest, k, v =>
    if k' = k then (k, v) :: rest else (k', v') :: dictSet rest k v

def dictRemove {K V : Type} [DecidableEq K] : List (K × V) → K → List (K × V)
  | [], _ => []
  | (k', v') :: rest, k => if k' = k then rest else (k', v') :: dictRemove rest k

def dictKeys {K V : Type} (l : List (K × V)) : List K := l.map Prod.fst

/-! ## Protocol constants (`protocol/constants.py`) -/

def CELL_SIZE : Int := 2048

def CELLS_PER_BLOB : Nat := 128

def ALL_ONES : Nat := (1 <<< CELLS_PER_BLOB) - 1

/-! ## Blobpool data model (`pool/blobpool.py`) -/

abbrev TxHash := Nat

abbrev Address := Nat

abbrev ActorId := Nat

structure BlobTxEntry where
  tx_hash : TxHash
  sender : Address
  nonce : Int
  gas_fee_cap : Int
  gas_tip_cap : Int
  blob_gas_price : Int
  tx_size : Int
  blob_count : Int
  cell_mask : Nat
  received_at : Rat
  announced_to : List ActorId
deriving DecidableEq

def BlobTxEntry.effective_tip (e : BlobTxEntry) : Int := e.gas_tip_cap

def BlobTxEntry.has_full_availability (e : BlobTxEntry) : Prop := e.cell_mask = ALL_ONES

instance (e : BlobTxEntry) : Decidable e.has_full_availability := by
  unfold BlobTxEntry.has_full_availability; infer_instance

structure SimConfig where
  blobpool_max_bytes : Int
  max_txs_per_sender : Nat
  max_blobs_per_block : Int
deriving DecidableEq

structure Blobpool where
  txs : List (TxHash × BlobTxEntry)
  by_sender : List (Address × List (Int × TxHash))
  total_size : Int
deriving DecidableEq

def emptyPool : Blobpool := { txs := [], by_sender := [], total_size := 0 }

def Blobpool.get (p : Blobpool) (h : TxHash) : Option BlobTxEntry := dictGet p.txs h

def Blobpool.contains (p : Blobpool) (h : TxHash) : Prop := (dictGet p.txs h).isSome

instance (p : Blobpool) (h : TxHash) : Decidable (p.contains h) := by
  unfold Blobpool.contains; infer_instance

def Blobpool.sender_tx_count (p : Blobpool) (s : Address) : Nat :=
  ((dictGet p.by_sender s).getD []).length

def senderNonceHash (p : Blobpool) (s : Address) (n : Int) : Option TxHash :=
  (dictGet p.by_sender s).bind (fun m => dictGet m n)

/-- RBF check of `Blobpool._can_replace`: Python `//` is floor division
(`Int.fdiv`), and `RBF_BUMP_PERCENT = 10`. -/
def canReplace (existing replacement : BlobTxEntry) : Prop :=
  Int.fdiv (existing.gas_fee_cap * (100 + 10)) 100 ≤ replacement.gas_fee_cap ∧
  Int.fdiv (existing.gas_tip_cap * (100 + 10)) 100 ≤ replacement.gas_tip_cap

instance (e r : BlobTxEntry) : Decidable (canReplace e r) := by
  unfold canReplace; infer_instance

/-- `Blobpool._remove_internal`.  The Python code pops the entry, subtracts
its size, pops the nonce from the sender's inner dict, and deletes the sender
key when the inner dict becomes empty (`if sender_nonces:` is false both for a
missing and for an empty dict).  A missing `tx_hash` would be a `KeyError` in
Python; callers only invoke it on present hashes, so that branch returns the
pool unchanged. -/
def removeSenderIndex (bySender : List (Address × List (Int × TxHash)))
    (e : BlobTxEntry) : List (Address × List (Int × TxHash)) :=
  match dictGet bySender e.sender with
  | none => bySender
  | some m =>
    if m = [] then bySender
    else
      if dictRemove m e.nonce = [] then dictRemove bySender e.sender
      else dictSet bySender e.sender (dictRemove m e.nonce)

def removeInternal (p : Blobpool) (h : TxHash) : Blobpool :=
  match dictGet p.txs h with
  | none => p
  | some e =>
    { txs := dictRemove p.txs h,
      by_sender := removeSenderIndex p.by_sender e,
      total_size := p.total_size - e.tx_size }

/-- Selection loop of `Blobpool._evict_lowest_priority`: first pass over
`self._txs.values()` keeping the entry with strictly smaller `effective_tip`
(ties keep the earlier entry in dict iteration order). -/
def findLowest (l : List (TxHash × BlobTxEntry)) (exclude : Option TxHash) :
    Option BlobTxEntry :=
  l.foldl
    (fun lowest kv =>
      if some kv.2.tx_hash = exclude then lowest
      else
        match lowest with
        | none => some kv.2
        | some lo =>
          if kv.2.effective_tip < lo.effective_tip then some kv.2 else lowest)
    none

/-- `Blobpool._evict_lowest_priority`: returns the updated pool and the hash
of the evicted entry, if any. -/
def evictLowestPriority (p : Blobpool) (exclude : Option TxHash)
    (min_priority : Option Int) : Blobpool × Option TxHash :=
  if p.txs = [] then (p, none)
  else
    match findLowest p.txs exclude with
    | none => (p, none)
    | some lowest =>
      match min_priority with
      | some mp =>
        if mp ≤ lowest.effective_tip then (p, none)
        else (removeInternal p lowest.tx_hash, some lowest.tx_hash)
      | none => (removeInternal p lowest.tx_hash, some lowest.tx_hash)

/-- Outcome of `Blobpool.add`: the `AddResult` on success, or the raised
exception.  The pool state accompanying an error outcome is the state at the
moment the exception is raised (Python performs no rollback). -/
inductive AddOutcome where
  | ok (replaced : Option TxHash) (evicted : List TxHash)
  | rbfRejected (existing_hash : TxHash)
  | senderLimitExceeded
  | poolFull
deriving DecidableEq

/-- Capacity-eviction `while` loop inside `Blobpool.add`.  Each iteration
either removes one entry from the pool or raises `PoolFull`, so the loop runs
at most `p.txs.length` times; the structural `fuel` (always called with
`p.txs.length + 1`) therefore never runs out on the `PoolFull` fallback. -/
def evictLoop (cfg : SimConfig) (space_needed : Int) (exclude : TxHash)
    (min_priority : Int) :
    Nat → Blobpool → List TxHash → Blobpool × List TxHash × Bool
  | 0, p, acc => (p, acc, false)
  | fuel + 1, p, acc =>
    if cfg.blobpool_max_bytes < p.total_size + space_needed then
      match evictLowestPriority p (some exclude) (some min_priority) with
      | (_, none) => (p, acc, false)
      | (p', some h) => evictLoop cfg space_needed exclude min_priority fuel p' (acc ++ [h])
    else (p, acc, true)

/-- Final insertion block of `Blobpool.add`: store under `tx_hash`, create the
sender's inner dict when missing, store the nonce, bump `total_size`. -/
def insertEntry (p : Blobpool) (e : BlobTxEntry) : Blobpool :=
  let bySender0 :=
    match dictGet p.by_sender e.sender with
    | some _ => p.by_sender
    | none => dictSet p.by_sender e.sender []
  let inner := (dictGet bySender0 e.sender).getD []
  { txs := dictSet p.txs e.tx_hash e,
    by_sender := dictSet bySender0 e.sender (dictSet inner e.nonce e.tx_hash),
    total_size := p.total_size + e.tx_size }

/-- Steps 2-4 of `Blobpool.add` (sender-limit check, capacity-eviction loop,
insertion), run after the RBF step produced pool `p1` and the `replaced`
result field. -/
def addAfterRBF (cfg : SimConfig) (p1 : Blobpool) (replaced : Option TxHash)
    (e : BlobTxEntry) : Blobpool × AddOutcome :=
  if cfg.max_txs_per_sender ≤ p1.sender_tx_count e.sender then
    (p1, AddOutcome.senderLimitExceeded)
  else
    match evictLoop cfg e.tx_size e.tx_hash e.effective_tip (p1.txs.length + 1) p1 [] with
    | (p2, _, false) => (p2, AddOutcome.poolFull)
    | (p2, evicted, true) => (insertEntry p2 e, AddOutcome.ok replaced evicted)

/-- `Blobpool.add`.  Returns the post-call pool (also on the exception paths,
where Python leaves all mutations made so far in place) together with the
outcome.  An RBF candidate hash missing from `_txs` would be a Python
`KeyError`; that branch is unreachable under `PoolWF` and proceeds without a
removal here. -/
def Blobpool.add (cfg : SimConfig) (p : Blobpool) (e : BlobTxEntry) :
    Blobpool × AddOutcome :=
  match dictGet ((dictGet p.by_sender e.sender).getD []) e.nonce with
  | none => addAfterRBF cfg p none e
  | some h_old =>
    match dictGet p.txs h_old with
    | some existing =>
      if canReplace existing e then
        addAfterRBF cfg (removeInternal p h_old) (some h_old) e
      else (p, AddOutcome.rbfRejected h_old)
    | none => addAfterRBF cfg p (some h_old) e

/-- `Blobpool.remove`: removal guarded by a membership check. -/
def Blobpool.remove (p : Blobpool) (h : TxHash) : Blobpool × Option BlobTxEntry :=
  match dictGet p.txs h with
  | none => (p, none)
  | some e => (removeInternal p h, some e)

def Blobpool.remove_batch (p : Blobpool) (hs : List TxHash) : Blobpool :=
  hs.foldl (fun q h => (q.remove h).1) p

def Blobpool.update_cell_mask (p : Blobpool) (h : TxHash) (new_mask : Nat) : Blobpool :=
  match dictGet p.txs h with
  | none => p
  | some e => { p with txs := dictSet p.txs h { e with cell_mask := new_mask } }

def Blobpool.merge_cells (p : Blobpool) (h : TxHash) (received_mask : Nat) : Blobpool :=
  match dictGet p.txs h with
  | none => p
  | some e => { p with txs := dictSet p.txs h { e with cell_mask := e.cell_mask ||| received_mask } }

def Blobpool.clear (_ : Blobpool) : Blobpool := emptyPool

/-! ## Pool invariants (`spec.md` section 8, "Universal invariants") -/

def nodupKeys {K V : Type} (l : List (K × V)) : Prop := (l.map Prod.fst).Nodup

/-- The spec's Blobpool invariant: `total_size = Σ entry.tx_size` and
`by_sender[s][n] = h ⇔ entries[h].sender = s ∧ entries[h].nonce = n`. -/
def ClaimInv (p : Blobpool) : Prop :=
  p.total_size = (p.txs.map (fun kv => kv.2.tx_size)).sum ∧
  ∀ s n h, senderNonceHash p s n = some h ↔
    ∃ e, dictGet p.txs h = some e ∧ e.sender = s ∧ e.nonce = n

/-- Full well-formedness of a pool: the spec invariant plus structural facts
the Python implementation maintains (dict keys unique, the entry stored at key
`h` has `tx_hash = h`, per-sender caps and the byte cap). -/
def PoolWF (cfg : SimConfig) (p : Blobpool) : Prop :=
  nodupKeys p.txs ∧
  nodupKeys p.by_sender ∧
  (∀ s m, dictGet p.by_sender s = some m → nodupKeys m) ∧
  (∀ h e, dictGet p.txs h = some e → e.tx_hash = h) ∧
  (∀ s m, dictGet p.by_sender s = some m → m.length ≤ cfg.max_txs_per_sender) ∧
  ClaimInv p

/-! ## Association-list dictionary lemmas -/

section DictLemmas

variable {K V : Type} [DecidableEq K]

theorem dictGet_eq_none {l : List (K × V)} {k : K} :
    dictGet l k = none ↔ k ∉ l.map Prod.fst := by
  induction l with
  | nil => simp [dictGet]
  | cons kv rest ih =>
    obtain ⟨k', v⟩ := kv
    by_cases h : k' = k
    · subst h
      simp [dictGet]
    · simp only [dictGet, if_neg h, List.map_cons, List.mem_cons]
      rw [ih]
      constructor
      · intro hn hc
        rcases hc with hc | hc
        · exact h hc.symm
        · exact hn hc
      · intro hn hc
        exact hn (Or.inr hc)

theorem dictGet_mem {l : List (K × V)} {k : K} {v : V} (h : dictGet l k = some v) :
    (k, v) ∈ l := by
  induction l with
  | nil => simp [dictGet] at h
  | cons kv rest ih =>
    obtain ⟨k', v'⟩ := kv
    by_cases hk : k' = k
    · subst hk
      simp [dictGet] at h
      subst h
      exact List.mem_cons_self _ _
    · simp [dictGet, hk] at h
      exact List.mem_cons_of_mem _ (ih h)

theorem dictGet_of_mem {l : List (K × V)} {k : K} {v : V}
    (hnd : nodupKeys l) (hm : (k, v) ∈ l) : dictGet l k = some v := by
  induction l with
  | nil => simp at hm
  | cons kv rest ih =>
    obtain ⟨k', v'⟩ := kv
    rcases List.mem_cons.mp hm with heq | hmem
    · rw [Prod.ext_iff] at heq
      obtain ⟨h1, h2⟩ := heq
      simp at h1 h2
      subst h1; subst h2
      simp [dictGet]
    · have hk : k' ≠ k := by
        intro hk
        subst hk
        have hmem' : k' ∈ rest.map Prod.fst := List.mem_map_of_mem Prod.fst hmem
        unfold nodupKeys at hnd
        simp at hnd
        obtain ⟨x, hx⟩ := by simpa using hmem'
        exact hnd.1 x hx
      have hnd' : nodupKeys rest := by
        unfold nodupKeys at hnd ⊢
        simp at hnd
        exact hnd.2
      simp [dictGet, hk]
      exact ih hnd' hmem

theorem dictRemove_sublist (l : List (K × V)) (k : K) : (dictRemove l k).Sublist l := by
  induction l with
  | nil => simp [dictRemove]
  | cons kv rest ih =>
    obtain ⟨k', v'⟩ := kv
    by_cases h : k' = k
    · simp [dictRemove, h]
    · simpa [dictRemove, h] using ih.cons₂ (k', v')

theorem nodupKeys_dictRemove {l : List (K × V)} (k : K) (hnd : nodupKeys l) :
    nodupKeys (dictRemove l k) := by
  unfold nodupKeys at hnd ⊢
  exact List.Nodup.sublist (List.Sublist.map Prod.fst (dictRemove_sublist l k)) hnd

theorem dictGet_dictRemove_self {l : List (K × V)} {k : K} (hnd : nodupKeys l) :
    dictGet (dictRemove l k) k = none := by
  induction l with
  | nil => simp [dictRemove, dictGet]
  | cons kv rest ih =>
    obtain ⟨k', v'⟩ := kv
    unfold nodupKeys at hnd
    simp at hnd
    by_cases h : k' = k
    · subst h
      simp [dictRemove]
      exact dictGet_eq_none.mpr (by simpa [nodupKeys] using fun v hv => hnd.1 v hv)
    · simp [dictRemove, h, dictGet]
      exact ih (by simpa [nodupKeys] using hnd.2)

theorem dictGet_dictRemove_ne {l : List (K × V)} {k k' : K} (h : k' ≠ k) :
    dictGet (dictRemove l k) k' = dictGet l k' := by
  induction l with
  | nil => simp [dictRemove]
  | cons kv rest ih =>
    obtain ⟨k0, v0⟩ := kv
    by_cases h0 : k0 = k
    · subst h0
      have hkk : ¬ (k0 = k') := fun hh => h hh.symm
      simp [dictRemove, dictGet, hkk]
    · by_cases h1 : k0 = k'
      · subst h1
        simp [dictRemove, h0, dictGet]
      · simp [dictRemove, h0, dictGet, h1, ih]

theorem dictGet_dictSet_self {l : List (K × V)} {k : K} {v : V} :
    dictGet (dictSet l k v) k = some v := by
  induction l with
  | nil => simp [dictSet, dictGet]
  | cons kv rest ih =>
    obtain ⟨k0, v0⟩ := kv
    by_cases h : k0 = k
    · simp [dictSet, h, dictGet]
    · simp [dictSet, h, dictGet, ih]

theorem dictGet_dictSet_ne {l : List (K × V)} {k k' : K} {v : V} (h : k' ≠ k) :
    dictGet (dictSet l k v) k' = dictGet l k' := by
  have hkk : ¬ (k = k') := fun hh => h hh.symm
  induction l with
  | nil => simp [dictSet, dictGet, hkk]
  | cons kv rest ih =>
    obtain ⟨k0, v0⟩ := kv
    by_cases h0 : k0 = k
    · subst h0
      simp [dictSet, dictGet, hkk]
    · by_cases h1 : k0 = k'
      · subst h1
        simp [dictSet, h0, dictGet]
      · simp [dictSet, h0, dictGet, h1, ih]

theorem dictSet_keys_mem {l : List (K × V)} {k : K} (v : V)
    (h : k ∈ l.map Prod.fst) :
    (dictSet l k v).map Prod.fst = l.map Prod.fst := by
  induction l with
  | nil => simp at h
  | cons kv rest ih =>
    obtain ⟨k0, v0⟩ := kv
    by_cases h0 : k0 = k
    · simp [dictSet, h0]
    · have : k ∈ rest.map Prod.fst := by
        simp at h
        rcases h with h | h
        · exact absurd h.symm h0
        · simpa using h
      simp [dictSet, h0, ih this]

theorem dictSet_keys_absent {l : List (K × V)} {k : K} (v : V)
    (h : k ∉ l.map Prod.fst) :
    (dictSet l k v).map Prod.fst = l.map Prod.fst ++ [k] := by
  induction l with
  | nil => simp [dictSet]
  | cons kv rest ih =>
    obtain ⟨k0, v0⟩ := kv
    simp at h
    have h0 : k0 ≠ k := fun hh => h.1 hh.symm
    simp [dictSet, h0, ih (by simpa using h.2)]

theorem nodupKeys_dictSet {l : List (K × V)} (k : K) (v : V) (hnd : nodupKeys l) :
    nodupKeys (dictSet l k v) := by
  by_cases h : k ∈ l.map Prod.fst
  · unfold nodupKeys at hnd ⊢
    rw [dictSet_keys_mem v h]
    exact hnd
  · unfold nodupKeys at hnd ⊢
    rw [dictSet_keys_absent v h]
    simpa [List.nodup_append] using And.intro hnd (by simpa using h)

theorem dictSet_absent {l : List (K × V)} {k : K} (v : V)
    (h : dictGet l k = none) : dictSet l k v = l ++ [(k, v)] := by
  induction l with
  | nil => simp [dictSet]
  | cons kv rest ih =>
    obtain ⟨k0, v0⟩ := kv
    by_cases h0 : k0 = k
    · subst h0
      simp [dictGet] at h
    · simp [dictGet, h0] at h
      simp [dictSet, h0, ih h]

theorem dictRemove_absent {l : List (K × V)} {k : K}
    (h : dictGet l k = none) : dictRemove l k = l := by
  induction l with
  | nil => simp [dictRemove]
  | cons kv rest ih =>
    obtain ⟨k0, v0⟩ := kv
    by_cases h0 : k0 = k
    · subst h0
      simp [dictGet] at h
    · simp [dictGet, h0] at h
      simp [dictRemove, h0, ih h]

theorem dictRemove_length {l : List (K × V)} {k : K} {v : V}
    (h : dictGet l k = some v) : (dictRemove l k).length + 1 = l.length := by
  induction l with
  | nil => simp [dictGet] at h
  | cons kv rest ih =>
    obtain ⟨k0, v0⟩ := kv
    by_cases h0 : k0 = k
    · simp [dictRemove, h0]
    · simp [dictGet, h0] at h
      simp [dictRemove, h0, ih h]

theorem dictRemove_sum_sizes {l : List (TxHash × BlobTxEntry)} {k : TxHash}
    {e : BlobTxEntry} (hnd : nodupKeys l) (h : dictGet l k = some e) :
    ((dictRemove l k).map (fun kv => kv.2.tx_size)).sum =
      (l.map (fun kv => kv.2.tx_size)).sum - e.tx_size := by
  induction l with
  | nil => simp [dictGet] at h
  | cons kv rest ih =>
    obtain ⟨k0, v0⟩ := kv
    by_cases h0 : k0 = k
    · subst h0
      simp [dictGet] at h
      subst h
      simp [dictRemove]
    · simp [dictGet, h0] at h
      have hnd' : nodupKeys rest := by
        unfold nodupKeys at hnd ⊢
        simp at hnd
        exact hnd.2
      simp [dictRemove, h0, ih hnd' h]
      ring

end DictLemmas

theorem dictRemove_eq_nil {K V : Type} [DecidableEq K] {l : List (K × V)} {k : K}
    (h : dictRemove l k = []) : ∀ k' v', (k', v') ∈ l → k' = k := by
  intro k' v' hm
  induction l with
  | nil => simp at hm
  | cons kv rest ih =>
    obtain ⟨k0, v0⟩ := kv
    by_cases h0 : k0 = k
    · subst h0
      simp [dictRemove] at h
      subst h
      rcases List.mem_cons.mp hm with he | he
      · exact congrArg Prod.fst he
      · simp at he
    · simp [dictRemove, h0] at h

/-! ## Lemmas about `removeInternal` -/

theorem PoolWF.txsNodup {cfg : SimConfig} {p : Blobpool} (w : PoolWF cfg p) :
    nodupKeys p.txs := w.1

theorem PoolWF.bySenderNodup {cfg : SimConfig} {p : Blobpool} (w : PoolWF cfg p) :
    nodupKeys p.by_sender := w.2.1

theorem PoolWF.innerNodup {cfg : SimConfig} {p : Blobpool} (w : PoolWF cfg p) :
    ∀ s m, dictGet p.by_sender s = some m → nodupKeys m := w.2.2.1

theorem PoolWF.coherent {cfg : SimConfig} {p : Blobpool} (w : PoolWF cfg p) :
    ∀ h e, dictGet p.txs h = some e → e.tx_hash = h := w.2.2.2.1

theorem PoolWF.counts {cfg : SimConfig} {p : Blobpool} (w : PoolWF cfg p) :
    ∀ s m, dictGet p.by_sender s = some m → m.length ≤ cfg.max_txs_per_sender :=
  w.2.2.2.2.1

theorem PoolWF.sizesSum {cfg : SimConfig} {p : Blobpool} (w : PoolWF cfg p) :
    p.total_size = (p.txs.map (fun kv => kv.2.tx_size)).sum := w.2.2.2.2.2.1

theorem PoolWF.senderIff {cfg : SimConfig} {p : Blobpool} (w : PoolWF cfg p) :
    ∀ s n h, senderNonceHash p s n = some h ↔
      ∃ e, dictGet p.txs h = some e ∧ e.sender = s ∧ e.nonce = n :=
  w.2.2.2.2.2.2

/-- Under the invariant, an entry present in `txs` is indexed by its own
`(sender, nonce)` pair. -/
theorem senderNonce_of_entry {cfg : SimConfig} {p : Blobpool} {h : TxHash}
    {e : BlobTxEntry} (w : PoolWF cfg p) (he : dictGet p.txs h = some e) :
    ∃ m, dictGet p.by_sender e.sender = some m ∧ dictGet m e.nonce = some h := by
  have hs : senderNonceHash p e.sender e.nonce = some h :=
    (w.senderIff e.sender e.nonce h).mpr ⟨e, he, rfl, rfl⟩
  unfold senderNonceHash at hs
  cases hm : dictGet p.by_sender e.sender with
  | none => rw [hm] at hs; simp at hs
  | some m =>
    rw [hm] at hs
    exact ⟨m, rfl, by simpa using hs⟩

theorem removeInternal_txs {p : Blobpool} {h : TxHash} {e : BlobTxEntry}
    (he : dictGet p.txs h = some e) :
    (removeInternal p h).txs = dictRemove p.txs h := by
  unfold removeInternal
  rw [he]

theorem removeInternal_total {p : Blobpool} {h : TxHash} {e : BlobTxEntry}
    (he : dictGet p.txs h = some e) :
    (removeInternal p h).total_size = p.total_size - e.tx_size := by
  unfold removeInternal
  rw [he]

theorem removeInternal_txs_lookup {cfg : SimConfig} {p : Blobpool} {h : TxHash}
    {e : BlobTxEntry} (w : PoolWF cfg p) (he : dictGet p.txs h = some e) :
    ∀ h', dictGet (removeInternal p h).txs h' =
      if h' = h then none else dictGet p.txs h' := by
  intro h'
  rw [removeInternal_txs he]
  by_cases hh : h' = h
  · subst hh
    simp [dictGet_dictRemove_self w.txsNodup]
  · simp [hh, dictGet_dictRemove_ne hh]

theorem removeInternal_bySender {cfg : SimConfig} {p : Blobpool} {h : TxHash}
    {e : BlobTxEntry} {m : List (Int × TxHash)} (_ : PoolWF cfg p)
    (he : dictGet p.txs h = some e) (hm : dictGet p.by_sender e.sender = some m)
    (hmne : m ≠ []) :
    (removeInternal p h).by_sender =
      (if dictRemove m e.nonce = [] then dictRemove p.by_sender e.sender
       else dictSet p.by_sender e.sender (dictRemove m e.nonce)) := by
  unfold removeInternal
  rw [he]
  show removeSenderIndex p.by_sender e = _
  unfold removeSenderIndex
  rw [hm]
  simp [hmne]

theorem removeInternal_senderNonce {cfg : SimConfig} {p : Blobpool} {h : TxHash}
    {e : BlobTxEntry} (w : PoolWF cfg p) (he : dictGet p.txs h = some e) :
    ∀ s n, senderNonceHash (removeInternal p h) s n =
      if s = e.sender ∧ n = e.nonce then none else senderNonceHash p s n := by
  obtain ⟨m, hm, hmn⟩ := senderNonce_of_entry w he
  have hmne : m ≠ [] := by
    intro hnil
    rw [hnil] at hmn
    simp [dictGet] at hmn
  have hpost := removeInternal_bySender w he hm hmne
  intro s n
  have hinner : nodupKeys m := w.innerNodup e.sender m hm
  unfold senderNonceHash
  rw [hpost]
  by_cases hs : s = e.sender
  · subst hs
    by_cases hnil : dictRemove m e.nonce = []
    · rw [if_pos hnil, dictGet_dictRemove_self w.bySenderNodup]
      by_cases hn : n = e.nonce
      · simp [hn]
      · have hnone : dictGet m n = none := by
          rw [dictGet_eq_none]
          intro hmem
          obtain ⟨v, hv⟩ := by simpa using hmem
          exact hn (dictRemove_eq_nil hnil n v hv)
        simp [hn, hm, hnone]
    · rw [if_neg hnil, dictGet_dictSet_self]
      by_cases hn : n = e.nonce
      · subst hn
        simp [dictGet_dictRemove_self hinner]
      · simp [hn, dictGet_dictRemove_ne hn, hm]
  · have hc : ¬ (s = e.sender ∧ n = e.nonce) := fun hc => hs hc.1
    by_cases hnil : dictRemove m e.nonce = []
    · rw [if_pos hnil, dictGet_dictRemove_ne hs]
      simp [hc]
    · rw [if_neg hnil, dictGet_dictSet_ne hs]
      simp [hc]

theorem removeInternal_wf {cfg : SimConfig} {p : Blobpool} {h : TxHash}
    {e : BlobTxEntry} (w : PoolWF cfg p) (he : dictGet p.txs h = some e) :
    PoolWF cfg (removeInternal p h) := by
  obtain ⟨m, hm, hmn⟩ := senderNonce_of_entry w he
  have hmne : m ≠ [] := by
    intro hnil
    rw [hnil] at hmn
    simp [dictGet] at hmn
  have hpost := removeInternal_bySender w he hm hmne
  refine ⟨?_, ?_, ?_, ?_, ?_, ?_, ?_⟩
  · rw [removeInternal_txs he]
    exact nodupKeys_dictRemove h w.txsNodup
  · rw [hpost]
    split
    · exact nodupKeys_dictRemove e.sender w.bySenderNodup
    · exact nodupKeys_dictSet e.sender _ w.bySenderNodup
  · intro s ms hms
    rw [hpost] at hms
    split at hms
    · by_cases hs : s = e.sender
      · subst hs
        rw [dictGet_dictRemove_self w.bySenderNodup] at hms
        simp at hms
      · rw [dictGet_dictRemove_ne hs] at hms
        exact w.innerNodup s ms hms
    · by_cases hs : s = e.sender
      · subst hs
        rw [dictGet_dictSet_self] at hms
        cases hms
        exact nodupKeys_dictRemove e.nonce (w.innerNodup _ m hm)
      · rw [dictGet_dictSet_ne hs] at hms
        exact w.innerNodup s ms hms
  · intro h' e' he'
    rw [removeInternal_txs_lookup w he] at he'
    split at he'
    · simp at he'
    · exact w.coherent h' e' he'
  · intro s ms hms
    rw [hpost] at hms
    split at hms
    · by_cases hs : s = e.sender
      · subst hs
        rw [dictGet_dictRemove_self w.bySenderNodup] at hms
        simp at hms
      · rw [dictGet_dictRemove_ne hs] at hms
        exact w.counts s ms hms
    · by_cases hs : s = e.sender
      · subst hs
        rw [dictGet_dictSet_self] at hms
        cases hms
        calc (dictRemove m e.nonce).length ≤ m.length :=
              List.Sublist.length_le (dictRemove_sublist m e.nonce)
          _ ≤ cfg.max_txs_per_sender := w.counts e.sender m hm
      · rw [dictGet_dictSet_ne hs] at hms
        exact w.counts s ms hms
  · rw [removeInternal_total he, removeInternal_txs he, w.sizesSum]
    exact (dictRemove_sum_sizes w.txsNodup he).symm
  · intro s n h'
    rw [removeInternal_senderNonce w he s n]
    constructor
    · intro hsn
      split at hsn
      · simp at hsn
      · obtain ⟨e', he', hes, hen⟩ := (w.senderIff s n h').mp hsn
        refine ⟨e', ?_, hes, hen⟩
        rw [removeInternal_txs_lookup w he]
        split
        · next hh =>
          subst hh
          rw [he] at he'
          cases he'
          next hne => exact absurd ⟨hes.symm, hen.symm⟩ hne
        · exact he'
    · intro hex
      obtain ⟨e', he', hes, hen⟩ := hex
      rw [removeInternal_txs_lookup w he] at he'
      split at he'
      · simp at he'
      · next hh =>
        have hsn := (w.senderIff s n h').mpr ⟨e', he', hes, hen⟩
        split
        · next hcond =>
          obtain ⟨hcs, hcn⟩ := hcond
          subst hcs; subst hcn
          have := (w.senderIff e.sender e.nonce h).mpr ⟨e, he, rfl, rfl⟩
          rw [hsn] at this
          cases this
          exact absurd rfl hh
        · exact hsn

/-! ## Lemmas about eviction selection -/

/-- The entries `_evict_lowest_priority` iterates over, in dict iteration
(= insertion) order, minus the excluded hash. -/
def evictionCandidates (l : List (TxHash × BlobTxEntry)) (exclude : Option TxHash) :
    List BlobTxEntry :=
  (l.map Prod.snd).filter (fun e => some e.tx_hash ≠ exclude)

def foldLowest (acc : Option BlobTxEntry) (l : List BlobTxEntry) : Option BlobTxEntry :=
  l.foldl
    (fun lowest en =>
      match lowest with
      | none => some en
      | some lo => if en.effective_tip < lo.effective_tip then some en else lowest)
    acc

theorem findLowest_eq_foldLowest (l : List (TxHash × BlobTxEntry))
    (ex : Option TxHash) :
    findLowest l ex = foldLowest none (evictionCandidates l ex) := by
  suffices hgen : ∀ acc, l.foldl
      (fun lowest kv =>
        if some kv.2.tx_hash = ex then lowest
        else
          match lowest with
          | none => some kv.2
          | some lo =>
            if kv.2.effective_tip < lo.effective_tip then some kv.2 else lowest)
      acc = foldLowest acc (evictionCandidates l ex) by
    exact hgen none
  induction l with
  | nil => intro acc; simp [evictionCandidates, foldLowest]
  | cons kv rest ih =>
    intro acc
    by_cases hx : some kv.2.tx_hash = ex
    · simp [evictionCandidates, foldLowest, List.foldl_cons, hx] at ih ⊢
      exact ih acc
    · simp [evictionCandidates, foldLowest, List.foldl_cons, hx] at ih ⊢
      exact ih _

theorem foldLowest_first_min : ∀ (xs : List BlobTxEntry) (cur : BlobTxEntry),
    ∃ r l1 l2, foldLowest (some cur) xs = some r ∧ cur :: xs = l1 ++ r :: l2 ∧
      (∀ y ∈ l1, r.effective_tip < y.effective_tip) ∧
      (∀ y ∈ cur :: xs, r.effective_tip ≤ y.effective_tip) := by
  intro xs
  induction xs with
  | nil =>
    intro cur
    exact ⟨cur, [], [], rfl, rfl, by simp, by simp⟩
  | cons x rest ih =>
    intro cur
    by_cases hlt : x.effective_tip < cur.effective_tip
    · obtain ⟨r, l1, l2, hfold, hsplit, hl1, hle⟩ := ih x
      refine ⟨r, cur :: l1, l2, ?_, ?_, ?_, ?_⟩
      · simpa [foldLowest, hlt] using hfold
      · rw [hsplit]
        simp
      · intro y hy
        rcases List.mem_cons.mp hy with hy | hy
        · subst hy
          have hx : r.effective_tip ≤ x.effective_tip :=
            hle x (List.mem_cons_self x rest)

          exact lt_of_le_of_lt hx hlt
        · exact hl1 y hy
      · intro y hy
        rcases List.mem_cons.mp hy with hy | hy
        · subst hy
          have hx : r.effective_tip ≤ x.effective_tip :=
            hle x (List.mem_cons_self x rest)
          exact le_of_lt (lt_of_le_of_lt hx hlt)
        · exact hle y hy
    · obtain ⟨r, l1, l2, hfold, hsplit, hl1, hle⟩ := ih cur
      cases l1 with
      | nil =>
        simp at hsplit
        obtain ⟨hrc, hl2⟩ := hsplit
        refine ⟨r, [], x :: rest, ?_, ?_, by simp, ?_⟩
        · simpa [foldLowest, hlt] using hfold
        · simp [← hrc]
        · intro y hy
          rcases List.mem_cons.mp hy with hy | hy
          · subst hy
            exact hle _ (List.mem_cons_self _ _)
          · rcases List.mem_cons.mp hy with hy | hy
            · subst hy
              rw [← hrc]
              exact le_of_not_lt hlt
            · exact hle y (List.mem_cons_of_mem cur hy)
      | cons c l1' =>
        rw [List.cons_append] at hsplit
        injection hsplit with hc hrest
        subst hc
        have hrcur : r.effective_tip < cur.effective_tip :=
          hl1 cur (List.mem_cons_self cur l1')
        refine ⟨r, cur :: x :: l1', l2, ?_, ?_, ?_, ?_⟩
        · simpa [foldLowest, hlt] using hfold
        · rw [hrest]
          simp
        · intro y hy
          rcases List.mem_cons.mp hy with hy | hy
          · subst hy; exact hrcur
          · rcases List.mem_cons.mp hy with hy | hy
            · subst hy
              exact lt_of_lt_of_le hrcur (le_of_not_lt hlt)
            · exact hl1 y (List.mem_cons_of_mem cur hy)
        · intro y hy
          rcases List.mem_cons.mp hy with hy | hy
          · subst hy; exact le_of_lt hrcur
          · rcases List.mem_cons.mp hy with hy | hy
            · subst hy
              exact le_of_lt (lt_of_lt_of_le hrcur (le_of_not_lt hlt))
            · exact hle y (List.mem_cons_of_mem cur hy)

theorem findLowest_spec {l : List (TxHash × BlobTxEntry)} {ex : Option TxHash}
    {r : BlobTxEntry} (h : findLowest l ex = some r) :
    ∃ l1 l2, evictionCandidates l ex = l1 ++ r :: l2 ∧
      (∀ y ∈ l1, r.effective_tip < y.effective_tip) ∧
      (∀ y ∈ evictionCandidates l ex, r.effective_tip ≤ y.effective_tip) := by
  rw [findLowest_eq_foldLowest] at h
  cases hc : evictionCandidates l ex with
  | nil =>
    rw [hc] at h
    simp [foldLowest] at h
  | cons c cs =>
    rw [hc] at h
    have hfl : foldLowest (some c) cs = some r := by
      simpa [foldLowest, List.foldl_cons] using h
    obtain ⟨r', l1, l2, hfold, hsplit, hl1, hle⟩ := foldLowest_first_min cs c
    rw [hfl] at hfold
    cases hfold
    refine ⟨l1, l2, hsplit, hl1, ?_⟩
    intro y hy
    exact hle y hy

theorem findLowest_lookup {cfg : SimConfig} {p : Blobpool} {ex : Option TxHash}
    {r : BlobTxEntry} (w : PoolWF cfg p) (h : findLowest p.txs ex = some r) :
    dictGet p.txs r.tx_hash = some r := by
  obtain ⟨l1, l2, hsplit, _, _⟩ := findLowest_spec h
  have hmem : r ∈ evictionCandidates p.txs ex := by
    rw [hsplit]
    exact List.mem_append.mpr (Or.inr (List.mem_cons_self r l2))
  have hmem' : r ∈ p.txs.map Prod.snd := List.mem_of_mem_filter hmem
  obtain ⟨kv, hkv, hkv2⟩ := List.mem_map.mp hmem'
  obtain ⟨k, v⟩ := kv
  simp at hkv2
  cases hkv2
  have hget : dictGet p.txs k = some r := dictGet_of_mem w.txsNodup hkv
  have hco : r.tx_hash = k := w.coherent k r hget
  rw [hco]
  exact hget

theorem evictLowestPriority_some {p : Blobpool} {ex : Option TxHash}
    {mp : Option Int} {p' : Blobpool} {h : TxHash}
    (he : evictLowestPriority p ex mp = (p', some h)) :
    ∃ r, findLowest p.txs ex = some r ∧ r.tx_hash = h ∧
      p' = removeInternal p h ∧ (∀ mpv, mp = some mpv → r.effective_tip < mpv) := by
  unfold evictLowestPriority at he
  split at he
  · simp at he
  · split at he
    · simp at he
    · rename_i lowest hfl
      split at he
      · rename_i mpv2
        split at he
        · simp at he
        · rename_i hnle
          injection he with hp' hh
          injection hh with hh
          refine ⟨lowest, hfl, hh, by rw [← hp', hh], ?_⟩
          intro v hv
          injection hv with hv
          rw [← hv]
          exact lt_of_not_le hnle
      · injection he with hp' hh
        injection hh with hh
        refine ⟨lowest, hfl, hh, by rw [← hp', hh], ?_⟩
        intro v hv
        simp at hv

/-! ## Lemmas about the eviction loop, insertion and `Blobpool.add` -/

theorem dictGet_append {K V : Type} [DecidableEq K] (l1 l2 : List (K × V)) (k : K) :
    dictGet (l1 ++ l2) k =
      match dictGet l1 k with
      | some v => some v
      | none => dictGet l2 k := by
  induction l1 with
  | nil => simp [dictGet]
  | cons kv rest ih =>
    obtain ⟨k0, v0⟩ := kv
    by_cases h0 : k0 = k
    · simp [dictGet, h0]
    · simp [dictGet, h0, ih]

theorem dictSet_length_absent {K V : Type} [DecidableEq K] {l : List (K × V)}
    {k : K} (v : V) (h : dictGet l k = none) :
    (dictSet l k v).length = l.length + 1 := by
  rw [dictSet_absent v h]
  simp

theorem senderNonceHash_eq (p : Blobpool) (s : Address) (n : Int) :
    senderNonceHash p s n = dictGet ((dictGet p.by_sender s).getD []) n := by
  cases hm : dictGet p.by_sender s <;> simp [senderNonceHash, hm, dictGet]

theorem dictSet_append_last {K V : Type} [DecidableEq K] {l : List (K × V)}
    {k : K} (v0 v : V) (h : dictGet l k = none) :
    dictSet (l ++ [(k, v0)]) k v = l ++ [(k, v)] := by
  induction l with
  | nil => simp [dictSet]
  | cons kv rest ih =>
    obtain ⟨k0, w0⟩ := kv
    by_cases h0 : k0 = k
    · simp [dictGet, h0] at h
    · simp [dictGet, h0] at h
      simp [dictSet, h0, ih h]

theorem evictLoop_spec {cfg : SimConfig} (space : Int) (ex : TxHash) (mp : Int) :
    ∀ (fuel : Nat) (p : Blobpool) (acc : List TxHash),
      PoolWF cfg p →
      PoolWF cfg (evictLoop cfg space ex mp fuel p acc).1 ∧
      (∀ h' e', dictGet (evictLoop cfg space ex mp fuel p acc).1.txs h' = some e' →
        dictGet p.txs h' = some e') ∧
      ((evictLoop cfg space ex mp fuel p acc).2.2 = true →
        (evictLoop cfg space ex mp fuel p acc).1.total_size + space ≤ cfg.blobpool_max_bytes) := by
  intro fuel
  induction fuel with
  | zero =>
    intro p acc w
    exact ⟨w, fun h' e' he' => he', by intro hb; simp [evictLoop] at hb⟩
  | succ n ih =>
    intro p acc w
    unfold evictLoop
    by_cases hcond : cfg.blobpool_max_bytes < p.total_size + space
    · rw [if_pos hcond]
      cases hev : evictLowestPriority p (some ex) (some mp) with
      | mk p1 oh =>
        cases oh with
        | none =>
          exact ⟨w, fun h' e' he' => he', by intro hb; simp at hb⟩
        | some h =>
          obtain ⟨r, hfl, hrh, hp1, _⟩ := evictLowestPriority_some hev
          have hlook : dictGet p.txs h = some r := by
            rw [← hrh]
            exact findLowest_lookup w hfl
          have w1 : PoolWF cfg p1 := by
            rw [hp1]
            exact removeInternal_wf w hlook
          obtain ⟨wres, hsub, hfit⟩ := ih p1 (acc ++ [h]) w1
          refine ⟨wres, ?_, hfit⟩
          intro h' e' he'
          have hsub' := hsub h' e' he'
          rw [hp1, removeInternal_txs_lookup w hlook] at hsub'
          split at hsub'
          · exact absurd hsub' (by simp)
          · exact hsub'
    · rw [if_neg hcond]
      exact ⟨w, fun h' e' he' => he', fun _ => le_of_not_lt hcond⟩

theorem insertEntry_wf {cfg : SimConfig} {p : Blobpool} {e : BlobTxEntry}
    (w : PoolWF cfg p)
    (hno : dictGet p.txs e.tx_hash = none)
    (hsn : senderNonceHash p e.sender e.nonce = none)
    (hcount : p.sender_tx_count e.sender < cfg.max_txs_per_sender) :
    PoolWF cfg (insertEntry p e) := by
  have htxs : (insertEntry p e).txs = dictSet p.txs e.tx_hash e := rfl
  obtain ⟨hsum, hiff⟩ := w.2.2.2.2.2
  cases hbs : dictGet p.by_sender e.sender with
  | some m =>
    have hby : (insertEntry p e).by_sender =
        dictSet p.by_sender e.sender (dictSet m e.nonce e.tx_hash) := by
      unfold insertEntry
      rw [hbs]
      simp [hbs]
    have hinner_none : dictGet m e.nonce = none := by
      rw [senderNonceHash_eq, hbs] at hsn
      simpa using hsn
    have hmnodup : nodupKeys m := w.innerNodup e.sender m hbs
    refine ⟨?_, ?_, ?_, ?_, ?_, ?_, ?_⟩
    · rw [htxs]; exact nodupKeys_dictSet _ _ w.txsNodup
    · rw [hby]; exact nodupKeys_dictSet _ _ w.bySenderNodup
    · intro s ms hms
      rw [hby] at hms
      by_cases hs : s = e.sender
      · subst hs
        rw [dictGet_dictSet_self] at hms
        cases hms
        exact nodupKeys_dictSet _ _ hmnodup
      · rw [dictGet_dictSet_ne hs] at hms
        exact w.innerNodup s ms hms
    · intro h' e' he'
      rw [htxs] at he'
      by_cases hh : h' = e.tx_hash
      · subst hh
        rw [dictGet_dictSet_self] at he'
        cases he'
        rfl
      · rw [dictGet_dictSet_ne hh] at he'
        exact w.coherent h' e' he'
    · intro s ms hms
      rw [hby] at hms
      by_cases hs : s = e.sender
      · subst hs
        rw [dictGet_dictSet_self] at hms
        cases hms
        rw [dictSet_length_absent _ hinner_none]
        have hc2 : p.sender_tx_count e.sender = m.length := by
          unfold Blobpool.sender_tx_count
          rw [hbs]
          rfl
        omega
      · rw [dictGet_dictSet_ne hs] at hms
        exact w.counts s ms hms
    · show (insertEntry p e).total_size = _
      rw [htxs, dictSet_absent e hno]
      show p.total_size + e.tx_size = _
      rw [hsum]
      simp
    · intro s n h'
      rw [senderNonceHash_eq, htxs, hby]
      by_cases hs : s = e.sender
      · subst hs
        rw [dictGet_dictSet_self]
        simp only [Option.getD_some]
        by_cases hn : n = e.nonce
        · subst hn
          rw [dictGet_dictSet_self]
          constructor
          · intro hh
            cases hh
            exact ⟨e, by rw [dictGet_dictSet_self], rfl, rfl⟩
          · intro hex
            obtain ⟨e', he', hes, hen⟩ := hex
            by_cases hh : h' = e.tx_hash
            · rw [hh]
            · rw [dictGet_dictSet_ne hh] at he'
              have := (hiff e.sender e.nonce h').mpr ⟨e', he', hes, hen⟩
              rw [hsn] at this
              simp at this
        · rw [dictGet_dictSet_ne hn]
          have hpre := hiff e.sender n h'
          rw [senderNonceHash_eq, hbs] at hpre
          simp only [Option.getD_some] at hpre
          rw [hpre]
          constructor
          · intro hex
            obtain ⟨e', he', hes, hen⟩ := hex
            refine ⟨e', ?_, hes, hen⟩
            by_cases hh : h' = e.tx_hash
            · rw [hh] at he'
              rw [hno] at he'
              simp at he'
            · rw [dictGet_dictSet_ne hh]
              exact he'
          · intro hex
            obtain ⟨e', he', hes, hen⟩ := hex
            by_cases hh : h' = e.tx_hash
            · subst hh
              rw [dictGet_dictSet_self] at he'
              cases he'
              exact absurd hen.symm hn
            · rw [dictGet_dictSet_ne hh] at he'
              exact ⟨e', he', hes, hen⟩
      · rw [dictGet_dictSet_ne hs]
        have hpre := hiff s n h'
        rw [senderNonceHash_eq] at hpre
        rw [hpre]
        constructor
        · intro hex
          obtain ⟨e', he', hes, hen⟩ := hex
          refine ⟨e', ?_, hes, hen⟩
          by_cases hh : h' = e.tx_hash
          · rw [hh, hno] at he'
            simp at he'
          · rw [dictGet_dictSet_ne hh]
            exact he'
        · intro hex
          obtain ⟨e', he', hes, hen⟩ := hex
          by_cases hh : h' = e.tx_hash
          · subst hh
            rw [dictGet_dictSet_self] at he'
            cases he'
            exact absurd hes.symm hs
          · rw [dictGet_dictSet_ne hh] at he'
            exact ⟨e', he', hes, hen⟩
  | none =>
    have hby : (insertEntry p e).by_sender =
        dictSet (dictSet p.by_sender e.sender []) e.sender
          (dictSet [] e.nonce e.tx_hash) := by
      unfold insertEntry
      rw [hbs]
      simp [dictGet_dictSet_self]
    have hby' : (insertEntry p e).by_sender =
        dictSet p.by_sender e.sender [(e.nonce, e.tx_hash)] := by
      rw [hby, dictSet_absent _ hbs, dictSet_absent _ hbs]
      show dictSet (p.by_sender ++ [(e.sender, [])]) e.sender [(e.nonce, e.tx_hash)] = _
      rw [dictSet_append_last _ _ hbs]
    refine ⟨?_, ?_, ?_, ?_, ?_, ?_, ?_⟩
    · rw [htxs]; exact nodupKeys_dictSet _ _ w.txsNodup
    · rw [hby']; exact nodupKeys_dictSet _ _ w.bySenderNodup
    · intro s ms hms
      rw [hby'] at hms
      by_cases hs : s = e.sender
      · subst hs
        rw [dictGet_dictSet_self] at hms
        cases hms
        simp [nodupKeys]
      · rw [dictGet_dictSet_ne hs] at hms
        exact w.innerNodup s ms hms
    · intro h' e' he'
      rw [htxs] at he'
      by_cases hh : h' = e.tx_hash
      · subst hh
        rw [dictGet_dictSet_self] at he'
        cases he'
        rfl
      · rw [dictGet_dictSet_ne hh] at he'
        exact w.coherent h' e' he'
    · intro s ms hms
      rw [hby'] at hms
      by_cases hs : s = e.sender
      · subst hs
        rw [dictGet_dictSet_self] at hms
        cases hms
        have hc0 : p.sender_tx_count e.sender = 0 := by
          unfold Blobpool.sender_tx_count
          rw [hbs]
          rfl
        simp
        omega
      · rw [dictGet_dictSet_ne hs] at hms
        exact w.counts s ms hms
    · show (insertEntry p e).total_size = _
      rw [htxs, dictSet_absent e hno]
      show p.total_size + e.tx_size = _
      rw [hsum]
      simp
    · intro s n h'
      rw [senderNonceHash_eq, htxs, hby']
      by_cases hs : s = e.sender
      · subst hs
        rw [dictGet_dictSet_self]
        simp only [Option.getD_some]
        by_cases hn : n = e.nonce
        · subst hn
          have hleft2 : dictGet [(e.nonce, e.tx_hash)] e.nonce = some e.tx_hash := by
            simp [dictGet]
          rw [hleft2]
          constructor
          · intro hh
            cases hh
            exact ⟨e, by rw [dictGet_dictSet_self], rfl, rfl⟩
          · intro hex
            obtain ⟨e', he', hes, hen⟩ := hex
            by_cases hh : h' = e.tx_hash
            · rw [hh]
            · rw [dictGet_dictSet_ne hh] at he'
              have := (hiff e.sender e.nonce h').mpr ⟨e', he', hes, hen⟩
              rw [hsn] at this
              simp at this
        · have hne2 : ¬ (e.nonce = n) := fun hh => hn hh.symm
          have hleft : dictGet [(e.nonce, e.tx_hash)] n = (none : Option TxHash) := by
            simp [dictGet, hne2]
          rw [hleft]
          have hpre := hiff e.sender n h'
          rw [senderNonceHash_eq, hbs] at hpre
          simp only [Option.getD_none] at hpre
          constructor
          · intro hh
            simp at hh
          · intro hex
            obtain ⟨e', he', hes, hen⟩ := hex
            by_cases hh : h' = e.tx_hash
            · subst hh
              rw [dictGet_dictSet_self] at he'
              cases he'
              exact absurd hen.symm hn
            · rw [dictGet_dictSet_ne hh] at he'
              have := hpre.mpr ⟨e', he', hes, hen⟩
              simp [dictGet] at this
      · rw [dictGet_dictSet_ne hs]
        have hpre := hiff s n h'
        rw [senderNonceHash_eq] at hpre
        rw [hpre]
        constructor
        · intro hex
          obtain ⟨e', he', hes, hen⟩ := hex
          refine ⟨e', ?_, hes, hen⟩
          by_cases hh : h' = e.tx_hash
          · rw [hh, hno] at he'
            simp at he'
          · rw [dictGet_dictSet_ne hh]
            exact he'
        · intro hex
          obtain ⟨e', he', hes, hen⟩ := hex
          by_cases hh : h' = e.tx_hash
          · subst hh
            rw [dictGet_dictSet_self] at he'
            cases he'
            exact absurd hes.symm hs
          · rw [dictGet_dictSet_ne hh] at he'
            exact ⟨e', he', hes, hen⟩

/-! ## Per-sender counts under removal and eviction -/

theorem removeInternal_count_le {cfg : SimConfig} {p : Blobpool} {h : TxHash}
    {e : BlobTxEntry} (w : PoolWF cfg p) (he : dictGet p.txs h = some e) :
    ∀ s, (removeInternal p h).sender_tx_count s ≤ p.sender_tx_count s := by
  obtain ⟨m, hm, hmn⟩ := senderNonce_of_entry w he
  have hmne : m ≠ [] := by
    intro hnil
    rw [hnil] at hmn
    simp [dictGet] at hmn
  have hpost := removeInternal_bySender w he hm hmne
  intro s
  unfold Blobpool.sender_tx_count
  rw [hpost]
  by_cases hs : s = e.sender
  · subst hs
    by_cases hnil : dictRemove m e.nonce = []
    · rw [if_pos hnil, dictGet_dictRemove_self w.bySenderNodup]
      simp
    · rw [if_neg hnil, dictGet_dictSet_self, hm]
      simpa using List.Sublist.length_le (dictRemove_sublist m e.nonce)
  · by_cases hnil : dictRemove m e.nonce = []
    · rw [if_pos hnil, dictGet_dictRemove_ne hs]
    · rw [if_neg hnil, dictGet_dictSet_ne hs]

theorem removeInternal_count_self {cfg : SimConfig} {p : Blobpool} {h : TxHash}
    {e : BlobTxEntry} (w : PoolWF cfg p) (he : dictGet p.txs h = some e) :
    (removeInternal p h).sender_tx_count e.sender + 1 = p.sender_tx_count e.sender := by
  obtain ⟨m, hm, hmn⟩ := senderNonce_of_entry w he
  have hmne : m ≠ [] := by
    intro hnil
    rw [hnil] at hmn
    simp [dictGet] at hmn
  have hpost := removeInternal_bySender w he hm hmne
  have hlen : (dictRemove m e.nonce).length + 1 = m.length := dictRemove_length hmn
  unfold Blobpool.sender_tx_count
  rw [hpost]
  by_cases hnil : dictRemove m e.nonce = []
  · rw [if_pos hnil, dictGet_dictRemove_self w.bySenderNodup, hm]
    rw [hnil] at hlen
    simpa using hlen
  · rw [if_neg hnil, dictGet_dictSet_self, hm]
    simpa using hlen

theorem evictLoop_counts {cfg : SimConfig} (space : Int) (ex : TxHash) (mp : Int) :
    ∀ (fuel : Nat) (p : Blobpool) (acc : List TxHash),
      PoolWF cfg p →
      ∀ s, (evictLoop cfg space ex mp fuel p acc).1.sender_tx_count s ≤
        p.sender_tx_count s := by
  intro fuel
  induction fuel with
  | zero => intro p acc _ s; exact le_refl _
  | succ n ih =>
    intro p acc w s
    unfold evictLoop
    by_cases hcond : cfg.blobpool_max_bytes < p.total_size + space
    · rw [if_pos hcond]
      cases hev : evictLowestPriority p (some ex) (some mp) with
      | mk p1 oh =>
        cases oh with
        | none => exact le_refl _
        | some h =>
          obtain ⟨r, hfl, hrh, hp1, _⟩ := evictLowestPriority_some hev
          have hlook : dictGet p.txs h = some r := by
            rw [← hrh]
            exact findLowest_lookup w hfl
          have w1 : PoolWF cfg p1 := by
            rw [hp1]
            exact removeInternal_wf w hlook
          calc (evictLoop cfg space ex mp n p1 (acc ++ [h])).1.sender_tx_count s
              ≤ p1.sender_tx_count s := ih p1 (acc ++ [h]) w1 s
            _ ≤ p.sender_tx_count s := by
                rw [hp1]
                exact removeInternal_count_le w hlook s
    · rw [if_neg hcond]

/-! ## Characterization of `addAfterRBF` and `Blobpool.add` -/

theorem addAfterRBF_ne_rbf {cfg : SimConfig} {p1 : Blobpool}
    {replaced : Option TxHash} {e : BlobTxEntry} {h0 : TxHash} :
    (addAfterRBF cfg p1 replaced e).2 ≠ AddOutcome.rbfRejected h0 := by
  unfold addAfterRBF
  split
  · simp
  · split
    · simp
    · simp

theorem addAfterRBF_sle {cfg : SimConfig} {p1 : Blobpool}
    {replaced : Option TxHash} {e : BlobTxEntry} :
    (addAfterRBF cfg p1 replaced e).2 = AddOutcome.senderLimitExceeded ↔
      cfg.max_txs_per_sender ≤ p1.sender_tx_count e.sender := by
  unfold addAfterRBF
  split
  · next hc => simp [hc]
  · next hc =>
    split
    · simpa using hc
    · simpa using hc

theorem addAfterRBF_sle_pool {cfg : SimConfig} {p1 : Blobpool}
    {replaced : Option TxHash} {e : BlobTxEntry}
    (h : (addAfterRBF cfg p1 replaced e).2 = AddOutcome.senderLimitExceeded) :
    (addAfterRBF cfg p1 replaced e).1 = p1 := by
  unfold addAfterRBF at h ⊢
  split at h
  · next hc => simp [hc]
  · next hc =>
    rw [if_neg hc]
    split at h <;> simp_all

theorem addAfterRBF_ok_replaced {cfg : SimConfig} {p1 : Blobpool}
    {replaced : Option TxHash} {e : BlobTxEntry} {r : Option TxHash}
    {ev : List TxHash}
    (h : (addAfterRBF cfg p1 replaced e).2 = AddOutcome.ok r ev) : r = replaced := by
  unfold addAfterRBF at h
  split at h
  · simp at h
  · split at h
    · simp at h
    · injection h with h1 h2
      exact h1.symm

theorem addAfterRBF_spec {cfg : SimConfig} {p1 : Blobpool}
    {replaced : Option TxHash} {e : BlobTxEntry} (w1 : PoolWF cfg p1)
    (hno : dictGet p1.txs e.tx_hash = none)
    (hsn : senderNonceHash p1 e.sender e.nonce = none) :
    PoolWF cfg (addAfterRBF cfg p1 replaced e).1 ∧
    (∀ h' e', dictGet (addAfterRBF cfg p1 replaced e).1.txs h' = some e' →
      dictGet p1.txs h' = some e' ∨ e' = e) := by
  unfold addAfterRBF
  by_cases hsle : cfg.max_txs_per_sender ≤ p1.sender_tx_count e.sender
  · rw [if_pos hsle]
    exact ⟨w1, fun h' e' he' => Or.inl he'⟩
  · rw [if_neg hsle]
    obtain ⟨w2, hsub, hfit⟩ :=
      evictLoop_spec e.tx_size e.tx_hash e.effective_tip (p1.txs.length + 1) p1 [] w1
    have hcnt :=
      evictLoop_counts e.tx_size e.tx_hash e.effective_tip (p1.txs.length + 1) p1 [] w1
    cases hev : evictLoop cfg e.tx_size e.tx_hash e.effective_tip (p1.txs.length + 1) p1 [] with
    | mk p2 rest =>
      rw [hev] at w2 hsub hfit hcnt
      cases rest with
      | mk ev flag =>
        cases flag with
        | false => exact ⟨w2, fun h' e' he' => Or.inl (hsub h' e' he')⟩
        | true =>
          have hno2 : dictGet p2.txs e.tx_hash = none := by
            cases hq : dictGet p2.txs e.tx_hash with
            | none => rfl
            | some q =>
              have := hsub e.tx_hash q hq
              rw [hno] at this
              simp at this
          have hsn2 : senderNonceHash p2 e.sender e.nonce = none := by
            cases hq : senderNonceHash p2 e.sender e.nonce with
            | none => rfl
            | some q =>
              obtain ⟨e', he', hes, hen⟩ := (w2.senderIff e.sender e.nonce q).mp hq
              have hup := hsub q e' he'
              have := (w1.senderIff e.sender e.nonce q).mpr ⟨e', hup, hes, hen⟩
              rw [hsn] at this
              simp at this
          have hcount2 : p2.sender_tx_count e.sender < cfg.max_txs_per_sender :=
            lt_of_le_of_lt (hcnt e.sender) (lt_of_not_le hsle)
          have wins := insertEntry_wf w2 hno2 hsn2 hcount2
          refine ⟨wins, ?_⟩
          intro h' e' he'
          have htxs : (insertEntry p2 e).txs = dictSet p2.txs e.tx_hash e := rfl
          rw [htxs] at he'
          by_cases hh : h' = e.tx_hash
          · subst hh
            rw [dictGet_dictSet_self] at he'
            cases he'
            exact Or.inr rfl
          · rw [dictGet_dictSet_ne hh] at he'
            exact Or.inl (hsub h' e' he')

/-- Precondition for `add` under which the pool invariant is preserved: a
pool entry already stored under the incoming `tx_hash` (if any) carries the
same `(sender, nonce)` pair. -/
def addPre (p : Blobpool) (e : BlobTxEntry) : Prop :=
  ∀ ent, dictGet p.txs e.tx_hash = some ent →
    ent.sender = e.sender ∧ ent.nonce = e.nonce

theorem add_spec {cfg : SimConfig} {p : Blobpool} {e : BlobTxEntry}
    (w : PoolWF cfg p) (hpre : addPre p e) :
    PoolWF cfg (Blobpool.add cfg p e).1 ∧
    (∀ h' e', dictGet (Blobpool.add cfg p e).1.txs h' = some e' →
      dictGet p.txs h' = some e' ∨ e' = e) := by
  unfold Blobpool.add
  split
  · rename_i hEx0
    have hEx : senderNonceHash p e.sender e.nonce = none := by
      rw [senderNonceHash_eq]
      exact hEx0
    have hno : dictGet p.txs e.tx_hash = none := by
      cases hq : dictGet p.txs e.tx_hash with
      | none => rfl
      | some ent =>
        obtain ⟨hes, hen⟩ := hpre ent hq
        have := (w.senderIff e.sender e.nonce e.tx_hash).mpr ⟨ent, hq, hes, hen⟩
        rw [hEx] at this
        simp at this
    exact addAfterRBF_spec w hno hEx
  · rename_i h_old hEx0
    have hEx : senderNonceHash p e.sender e.nonce = some h_old := by
      rw [senderNonceHash_eq]
      exact hEx0
    obtain ⟨e_old, hold, hes_old, hen_old⟩ :=
      (w.senderIff e.sender e.nonce h_old).mp hEx
    split
    · rename_i existing hold2
      rw [hold] at hold2
      injection hold2 with hold2
      split
      · rename_i hcan
        rw [← hold2] at hcan
        have w1 : PoolWF cfg (removeInternal p h_old) := removeInternal_wf w hold
        have hno1 : dictGet (removeInternal p h_old).txs e.tx_hash = none := by
          rw [removeInternal_txs_lookup w hold]
          by_cases hh : e.tx_hash = h_old
          · rw [if_pos hh]
          · rw [if_neg hh]
            cases hq : dictGet p.txs e.tx_hash with
            | none => rfl
            | some ent =>
              obtain ⟨hes, hen⟩ := hpre ent hq
              have := (w.senderIff e.sender e.nonce e.tx_hash).mpr ⟨ent, hq, hes, hen⟩
              rw [hEx] at this
              injection this with this
              exact absurd this.symm hh
        have hsn1 : senderNonceHash (removeInternal p h_old) e.sender e.nonce = none := by
          rw [removeInternal_senderNonce w hold]
          rw [if_pos ⟨hes_old.symm, hen_old.symm⟩]
        obtain ⟨wres, hsub⟩ := addAfterRBF_spec w1 hno1 hsn1
        refine ⟨wres, ?_⟩
        intro h' e' he'
        rcases hsub h' e' he' with hs1 | hs1
        · rw [removeInternal_txs_lookup w hold] at hs1
          split at hs1
          · simp at hs1
          · exact Or.inl hs1
        · exact Or.inr hs1
      · rename_i hcan
        exact ⟨w, fun h' e' he' => Or.inl he'⟩
    · rename_i hold2
      rw [hold] at hold2
      simp at hold2

theorem add_rbfRejected_unchanged {cfg : SimConfig} {p : Blobpool}
    {e : BlobTxEntry} {h0 : TxHash}
    (h : (Blobpool.add cfg p e).2 = AddOutcome.rbfRejected h0) :
    (Blobpool.add cfg p e).1 = p := by
  unfold Blobpool.add at h ⊢
  split at h
  · exact absurd h addAfterRBF_ne_rbf
  · rename_i h_old hEx
    split at h
    · rename_i existing hold
      split at h
      · exact absurd h addAfterRBF_ne_rbf
      · rename_i hcan
        rw [if_neg hcan]
    · exact absurd h addAfterRBF_ne_rbf

theorem add_sle_unchanged {cfg : SimConfig} {p : Blobpool} {e : BlobTxEntry}
    (w : PoolWF cfg p)
    (h : (Blobpool.add cfg p e).2 = AddOutcome.senderLimitExceeded) :
    (Blobpool.add cfg p e).1 = p := by
  unfold Blobpool.add at h ⊢
  split at h
  · exact addAfterRBF_sle_pool h
  · rename_i h_old hEx0
    have hEx : senderNonceHash p e.sender e.nonce = some h_old := by
      rw [senderNonceHash_eq]
      exact hEx0
    split at h
    · rename_i existing hold
      split at h
      · rename_i hcan
        exfalso
        have hcond := addAfterRBF_sle.mp h
        obtain ⟨e_old, hold2, hes_old, hen_old⟩ :=
          (w.senderIff e.sender e.nonce h_old).mp hEx
        rw [hold] at hold2
        injection hold2 with hold2
        have hes : existing.sender = e.sender := by
          rw [hold2]
          exact hes_old
        have hc1 : (removeInternal p h_old).sender_tx_count existing.sender + 1 =
            p.sender_tx_count existing.sender := removeInternal_count_self w hold
        obtain ⟨m, hm, _⟩ := senderNonce_of_entry w hold
        have hc2 : p.sender_tx_count existing.sender = m.length := by
          unfold Blobpool.sender_tx_count
          rw [hm]
          rfl
        have hc3 : m.length ≤ cfg.max_txs_per_sender := w.counts _ m hm
        rw [hes] at hc1 hc2
        omega
      · simp at h
    · exact addAfterRBF_sle_pool h

theorem addAfterRBF_poolFull_state {cfg : SimConfig} {p1 : Blobpool}
    {rep : Option TxHash} {e : BlobTxEntry} (w1 : PoolWF cfg p1)
    (hpf : (addAfterRBF cfg p1 rep e).2 = AddOutcome.poolFull) :
    PoolWF cfg (addAfterRBF cfg p1 rep e).1 ∧
    (∀ h' e', dictGet (addAfterRBF cfg p1 rep e).1.txs h' = some e' →
      dictGet p1.txs h' = some e') := by
  unfold addAfterRBF at hpf ⊢
  split at hpf
  · simp at hpf
  · next hc =>
    rw [if_neg hc]
    obtain ⟨w2, hsub, _⟩ :=
      evictLoop_spec e.tx_size e.tx_hash e.effective_tip (p1.txs.length + 1) p1 [] w1
    cases hev : evictLoop cfg e.tx_size e.tx_hash e.effective_tip (p1.txs.length + 1) p1 [] with
    | mk p2 rest =>
      rw [hev] at w2 hsub hpf
      cases rest with
      | mk ev flag =>
        cases flag with
        | false => exact ⟨w2, hsub⟩
        | true => simp at hpf

theorem add_poolFull_state {cfg : SimConfig} {p : Blobpool} {e : BlobTxEntry}
    (w : PoolWF cfg p)
    (h : (Blobpool.add cfg p e).2 = AddOutcome.poolFull) :
    PoolWF cfg (Blobpool.add cfg p e).1 ∧
    (∀ h' e', dictGet (Blobpool.add cfg p e).1.txs h' = some e' →
      dictGet p.txs h' = some e') := by
  unfold Blobpool.add at h ⊢
  split at h
  · exact addAfterRBF_poolFull_state w h
  · rename_i h_old hEx0
    split at h
    · rename_i existing hold
      split at h
      · rename_i hcan
        rw [if_pos hcan]
        have w1 : PoolWF cfg (removeInternal p h_old) := removeInternal_wf w hold
        obtain ⟨hw, hsub⟩ := addAfterRBF_poolFull_state w1 h
        refine ⟨hw, ?_⟩
        intro h' e' he'
        have hs1 := hsub h' e' he'
        rw [removeInternal_txs_lookup w hold] at hs1
        split at hs1
        · simp at hs1
        · exact hs1
      · simp at h
    · exact addAfterRBF_poolFull_state w h

theorem addAfterRBF_preserves_none {cfg : SimConfig} {p1 : Blobpool}
    {rep : Option TxHash} {e : BlobTxEntry} {x : TxHash} (w1 : PoolWF cfg p1)
    (hx : dictGet p1.txs x = none) (hne : x ≠ e.tx_hash) :
    dictGet (addAfterRBF cfg p1 rep e).1.txs x = none := by
  unfold addAfterRBF
  split
  · exact hx
  · obtain ⟨_, hsub, _⟩ :=
      evictLoop_spec e.tx_size e.tx_hash e.effective_tip (p1.txs.length + 1) p1 [] w1
    cases hev : evictLoop cfg e.tx_size e.tx_hash e.effective_tip (p1.txs.length + 1) p1 [] with
    | mk p2 rest =>
      rw [hev] at hsub
      cases rest with
      | mk ev flag =>
        have hnone2 : dictGet p2.txs x = none := by
          cases hq : dictGet p2.txs x with
          | none => rfl
          | some q =>
            have hup := hsub x q hq
            rw [hx] at hup
            simp at hup
        cases flag with
        | false => exact hnone2
        | true =>
          show dictGet (dictSet p2.txs e.tx_hash e) x = none
          rw [dictGet_dictSet_ne hne]
          exact hnone2

/-- RBF behaviour of `Blobpool.add` when a same-`(sender, nonce)` entry
exists: the call raises `RBFRejected` exactly when the floor-division fee
bump check fails (the pool is then untouched); when the check passes the old
entry is removed and a returned `AddResult` reports its hash in `replaced`. -/
theorem add_rbf_char {cfg : SimConfig} {p : Blobpool} {e : BlobTxEntry}
    {h_old : TxHash} {e_old : BlobTxEntry} (w : PoolWF cfg p)
    (hsn : senderNonceHash p e.sender e.nonce = some h_old)
    (hold : dictGet p.txs h_old = some e_old) :
    ((Blobpool.add cfg p e).2 = AddOutcome.rbfRejected h_old ↔ ¬ canReplace e_old e) ∧
    (¬ canReplace e_old e → (Blobpool.add cfg p e).1 = p) ∧
    (∀ r ev, (Blobpool.add cfg p e).2 = AddOutcome.ok r ev → r = some h_old) ∧
    (canReplace e_old e → h_old ≠ e.tx_hash →
      dictGet (Blobpool.add cfg p e).1.txs h_old = none) := by
  have hEx0 : dictGet ((dictGet p.by_sender e.sender).getD []) e.nonce = some h_old := by
    rw [← senderNonceHash_eq]
    exact hsn
  unfold Blobpool.add
  split
  · rename_i hq
    rw [hEx0] at hq
    simp at hq
  · rename_i h_old2 hq
    rw [hEx0] at hq
    injection hq with hq
    subst hq
    split
    · rename_i existing hold2
      rw [hold] at hold2
      injection hold2 with hold2
      subst hold2
      split
      · rename_i hcan
        refine ⟨?_, ?_, ?_, ?_⟩
        · constructor
          · intro habs
            exact absurd habs addAfterRBF_ne_rbf
          · intro hnc
            exact absurd hcan hnc
        · intro hnc
          exact absurd hcan hnc
        · intro r ev hok
          exact addAfterRBF_ok_replaced hok
        · intro _ hne
          have w1 : PoolWF cfg (removeInternal p h_old) := removeInternal_wf w hold
          have hnone1 : dictGet (removeInternal p h_old).txs h_old = none := by
            rw [removeInternal_txs_lookup w hold]
            rw [if_pos rfl]
          exact addAfterRBF_preserves_none w1 hnone1 hne
      · rename_i hcan
        refine ⟨?_, ?_, ?_, ?_⟩
        · exact ⟨fun _ => hcan, fun _ => rfl⟩
        · intro _
          rfl
        · intro r ev hok
          simp at hok
        · intro hcan2 _
          exact absurd hcan2 hcan
    · rename_i hold2
      rw [hold] at hold2
      simp at hold2

/-! ## Preservation for the remaining pool operations, and operation sequences -/

theorem emptyPool_wf (cfg : SimConfig) : PoolWF cfg emptyPool := by
  refine ⟨?_, ?_, ?_, ?_, ?_, ?_, ?_⟩
  · simp [emptyPool, nodupKeys]
  · simp [emptyPool, nodupKeys]
  · intro s m hm
    simp [emptyPool, dictGet] at hm
  · intro h e he
    simp [emptyPool, dictGet] at he
  · intro s m hm
    simp [emptyPool, dictGet] at hm
  · simp [emptyPool]
  · intro s n h
    constructor
    · intro hq
      simp [emptyPool, senderNonceHash, dictGet] at hq
    · intro hex
      obtain ⟨e, he, _, _⟩ := hex
      simp [emptyPool, dictGet] at he

theorem remove_wf {cfg : SimConfig} {p : Blobpool} {h : TxHash} (w : PoolWF cfg p) :
    PoolWF cfg (p.remove h).1 ∧
    (∀ h' e', dictGet (p.remove h).1.txs h' = some e' → dictGet p.txs h' = some e') := by
  unfold Blobpool.remove
  split
  · exact ⟨w, fun h' e' he' => he'⟩
  · rename_i e he
    refine ⟨removeInternal_wf w he, ?_⟩
    intro h' e' he'
    rw [removeInternal_txs_lookup w he] at he'
    split at he'
    · simp at he'
    · exact he'

theorem remove_batch_wf {cfg : SimConfig} :
    ∀ (hs : List TxHash) (p : Blobpool), PoolWF cfg p →
      PoolWF cfg (p.remove_batch hs) ∧
      (∀ h' e', dictGet (p.remove_batch hs).txs h' = some e' →
        dictGet p.txs h' = some e') := by
  intro hs
  induction hs with
  | nil => intro p w; exact ⟨w, fun h' e' he' => he'⟩
  | cons h rest ih =>
    intro p w
    obtain ⟨w1, hsub1⟩ := remove_wf (h := h) w
    obtain ⟨w2, hsub2⟩ := ih (p.remove h).1 w1
    exact ⟨w2, fun h' e' he' => hsub1 h' e' (hsub2 h' e' he')⟩

theorem dictSet_sum_sizes {l : List (TxHash × BlobTxEntry)} {k : TxHash}
    {e v : BlobTxEntry} (h : dictGet l k = some e) (hsz : v.tx_size = e.tx_size) :
    ((dictSet l k v).map (fun kv => kv.2.tx_size)).sum =
      (l.map (fun kv => kv.2.tx_size)).sum := by
  induction l with
  | nil => simp [dictGet] at h
  | cons kv rest ih =>
    obtain ⟨k0, v0⟩ := kv
    by_cases h0 : k0 = k
    · subst h0
      simp [dictGet] at h
      subst h
      simp [dictSet, hsz]
    · simp [dictGet, h0] at h
      simp [dictSet, h0, ih h]

/-- Replacing the entry stored at `h` by one with the same hash, sender,
nonce and size (only `cell_mask` may differ) preserves the pool invariant. -/
theorem modifyEntry_wf {cfg : SimConfig} {p : Blobpool} {h : TxHash}
    {e enew : BlobTxEntry} (w : PoolWF cfg p) (he : dictGet p.txs h = some e)
    (hhs : enew.tx_hash = e.tx_hash) (hse : enew.sender = e.sender)
    (hnn : enew.nonce = e.nonce) (hsz : enew.tx_size = e.tx_size) :
    PoolWF cfg { p with txs := dictSet p.txs h enew } := by
  refine ⟨?_, w.bySenderNodup, w.innerNodup, ?_, w.counts, ?_, ?_⟩
  · exact nodupKeys_dictSet _ _ w.txsNodup
  · intro h' e' he'
    show e'.tx_hash = h'
    by_cases hh : h' = h
    · subst hh
      dsimp only at he'
      rw [dictGet_dictSet_self] at he'
      cases he'
      rw [hhs]
      exact w.coherent h' e he
    · dsimp only at he'
      rw [dictGet_dictSet_ne hh] at he'
      exact w.coherent h' e' he'
  · show p.total_size = _
    rw [w.sizesSum]
    exact (dictSet_sum_sizes he hsz).symm
  · intro s n h'
    show senderNonceHash p s n = some h' ↔ _
    rw [w.senderIff s n h']
    constructor
    · intro hex
      obtain ⟨e', he', hes, hen⟩ := hex
      by_cases hh : h' = h
      · subst hh
        rw [he] at he'
        cases he'
        refine ⟨enew, ?_, ?_, ?_⟩
        · show dictGet (dictSet p.txs h' enew) h' = some enew
          exact dictGet_dictSet_self
        · rw [hse]; exact hes
        · rw [hnn]; exact hen
      · refine ⟨e', ?_, hes, hen⟩
        show dictGet (dictSet p.txs h enew) h' = some e'
        rw [dictGet_dictSet_ne hh]
        exact he'
    · intro hex
      obtain ⟨e', he', hes, hen⟩ := hex
      by_cases hh : h' = h
      · subst hh
        dsimp only at he'
        rw [dictGet_dictSet_self] at he'
        cases he'
        refine ⟨e, he, ?_, ?_⟩
        · rw [← hse]; exact hes
        · rw [← hnn]; exact hen
      · dsimp only at he'
        rw [dictGet_dictSet_ne hh] at he'
        exact ⟨e', he', hes, hen⟩

theorem update_cell_mask_wf {cfg : SimConfig} {p : Blobpool} {h : TxHash}
    {m : Nat} (w : PoolWF cfg p) : PoolWF cfg (p.update_cell_mask h m) := by
  unfold Blobpool.update_cell_mask
  split
  · exact w
  · rename_i e he
    exact modifyEntry_wf w he rfl rfl rfl rfl

theorem merge_cells_wf {cfg : SimConfig} {p : Blobpool} {h : TxHash}
    {m : Nat} (w : PoolWF cfg p) : PoolWF cfg (p.merge_cells h m) := by
  unfold Blobpool.merge_cells
  split
  · exact w
  · rename_i e he
    exact modifyEntry_wf w he rfl rfl rfl rfl

/-- The Blobpool operations named by the spec (the `add` error paths are
included because `add` returns its post-exception state). -/
inductive PoolOp where
  | addOp (e : BlobTxEntry)
  | removeOp (h : TxHash)
  | removeBatchOp (hs : List TxHash)
  | updateCellMaskOp (h : TxHash) (m : Nat)
  | mergeCellsOp (h : TxHash) (m : Nat)
  | clearOp

def applyOp (cfg : SimConfig) (p : Blobpool) : PoolOp → Blobpool
  | .addOp e => (Blobpool.add cfg p e).1
  | .removeOp h => (p.remove h).1
  | .removeBatchOp hs => p.remove_batch hs
  | .updateCellMaskOp h m => p.update_cell_mask h m
  | .mergeCellsOp h m => p.merge_cells h m
  | .clearOp => p.clear

def runOps (cfg : SimConfig) (ops : List PoolOp) : Blobpool :=
  ops.foldl (applyOp cfg) emptyPool

def addsOf (ops : List PoolOp) : List BlobTxEntry :=
  ops.filterMap (fun op =>
    match op with
    | .addOp e => some e
    | _ => none)

/-- No two `add` calls in the sequence use the same `tx_hash` with different
`(sender, nonce)` pairs (true of real content-addressed transaction hashes). -/
def HashConsistent (ops : List PoolOp) : Prop :=
  ∀ e1 ∈ addsOf ops, ∀ e2 ∈ addsOf ops,
    e1.tx_hash = e2.tx_hash → e1.sender = e2.sender ∧ e1.nonce = e2.nonce

instance (ops : List PoolOp) : Decidable (HashConsistent ops) := by
  unfold HashConsistent
  infer_instance

/-- Every entry of the pool descends from an entry satisfying `S`, keeping
hash, sender and nonce. -/
def Origins (S : BlobTxEntry → Prop) (p : Blobpool) : Prop :=
  ∀ h e, dictGet p.txs h = some e →
    ∃ e0, S e0 ∧ e0.tx_hash = e.tx_hash ∧ e0.sender = e.sender ∧ e0.nonce = e.nonce

theorem runOps_aux {cfg : SimConfig} :
    ∀ (ops : List PoolOp) (p : Blobpool) (S : BlobTxEntry → Prop),
      PoolWF cfg p → Origins S p →
      (∀ e1 e2, (S e1 ∨ e1 ∈ addsOf ops) → (S e2 ∨ e2 ∈ addsOf ops) →
        e1.tx_hash = e2.tx_hash → e1.sender = e2.sender ∧ e1.nonce = e2.nonce) →
      PoolWF cfg (ops.foldl (applyOp cfg) p) := by
  intro ops
  induction ops with
  | nil => intro p S w _ _; exact w
  | cons op rest ih =>
    intro p S w horig hcons
    rw [List.foldl_cons]
    have hsubsumed : ∀ x, x ∈ addsOf rest → x ∈ addsOf (op :: rest) := by
      intro x hx
      unfold addsOf at hx ⊢
      rw [List.filterMap_cons]
      split
      · exact hx
      · exact List.mem_cons_of_mem _ hx
    cases op with
    | addOp e =>
      have he_mem : e ∈ addsOf (PoolOp.addOp e :: rest) := by
        unfold addsOf
        simp [List.filterMap_cons]
      have hpre : addPre p e := by
        intro ent hent
        obtain ⟨e0, hS, hh0, hs0, hn0⟩ := horig e.tx_hash ent hent
        have hco : ent.tx_hash = e.tx_hash := w.coherent _ _ hent
        have hkey : e0.tx_hash = e.tx_hash := by rw [hh0, hco]
        obtain ⟨hs1, hn1⟩ := hcons e0 e (Or.inl hS) (Or.inr he_mem) hkey
        exact ⟨by rw [← hs0, hs1], by rw [← hn0, hn1]⟩
      obtain ⟨w', hsub⟩ := add_spec w hpre
      refine ih (Blobpool.add cfg p e).1 (fun e0 => S e0 ∨ e0 = e) w' ?_ ?_
      · intro h' e' he'
        rcases hsub h' e' he' with hs1 | hs1
        · obtain ⟨e0, hS, hh0, hs0, hn0⟩ := horig h' e' hs1
          exact ⟨e0, Or.inl hS, hh0, hs0, hn0⟩
        · exact ⟨e, Or.inr rfl, by rw [hs1], by rw [hs1], by rw [hs1]⟩
      · intro e1 e2 h1 h2 hkey
        apply hcons e1 e2 <;>
          [skip; skip; exact hkey] <;>
          [rcases h1 with (hS | he1) | h1; rcases h2 with (hS | he2) | h2]
        · exact Or.inl hS
        · exact Or.inr (by rw [he1]; exact he_mem)
        · exact Or.inr (hsubsumed _ h1)
        · exact Or.inl hS
        · exact Or.inr (by rw [he2]; exact he_mem)
        · exact Or.inr (hsubsumed _ h2)
    | removeOp h =>
      obtain ⟨w', hsub⟩ := remove_wf (h := h) w
      refine ih _ S w' ?_ ?_
      · intro h' e' he'
        exact horig h' e' (hsub h' e' he')
      · intro e1 e2 h1 h2 hkey
        apply hcons e1 e2 _ _ hkey
        · rcases h1 with hS | h1
          · exact Or.inl hS
          · exact Or.inr (hsubsumed _ h1)
        · rcases h2 with hS | h2
          · exact Or.inl hS
          · exact Or.inr (hsubsumed _ h2)
    | removeBatchOp hs =>
      obtain ⟨w', hsub⟩ := remove_batch_wf hs p w
      refine ih _ S w' ?_ ?_
      · intro h' e' he'
        exact horig h' e' (hsub h' e' he')
      · intro e1 e2 h1 h2 hkey
        apply hcons e1 e2 _ _ hkey
        · rcases h1 with hS | h1
          · exact Or.inl hS
          · exact Or.inr (hsubsumed _ h1)
        · rcases h2 with hS | h2
          · exact Or.inl hS
          · exact Or.inr (hsubsumed _ h2)
    | updateCellMaskOp h m =>
      have w' := update_cell_mask_wf (h := h) (m := m) w
      refine ih _ S w' ?_ ?_
      · intro h' e' he'
        dsimp only [applyOp] at he'
        unfold Blobpool.update_cell_mask at he'
        split at he'
        · exact horig h' e' he'
        · rename_i e0 he0
          by_cases hh : h' = h
          · subst hh
            dsimp only at he'
            rw [dictGet_dictSet_self] at he'
            cases he'
            exact horig h' e0 he0
          · dsimp only at he'
            rw [dictGet_dictSet_ne hh] at he'
            exact horig h' e' he'
      · intro e1 e2 h1 h2 hkey
        apply hcons e1 e2 _ _ hkey
        · rcases h1 with hS | h1
          · exact Or.inl hS
          · exact Or.inr (hsubsumed _ h1)
        · rcases h2 with hS | h2
          · exact Or.inl hS
          · exact Or.inr (hsubsumed _ h2)
    | mergeCellsOp h m =>
      have w' := merge_cells_wf (h := h) (m := m) w
      refine ih _ S w' ?_ ?_
      · intro h' e' he'
        dsimp only [applyOp] at he'
        unfold Blobpool.merge_cells at he'
        split at he'
        · exact horig h' e' he'
        · rename_i e0 he0
          by_cases hh : h' = h
          · subst hh
            dsimp only at he'
            rw [dictGet_dictSet_self] at he'
            cases he'
            exact horig h' e0 he0
          · dsimp only at he'
            rw [dictGet_dictSet_ne hh] at he'
            exact horig h' e' he'
      · intro e1 e2 h1 h2 hkey
        apply hcons e1 e2 _ _ hkey
        · rcases h1 with hS | h1
          · exact Or.inl hS
          · exact Or.inr (hsubsumed _ h1)
        · rcases h2 with hS | h2
          · exact Or.inl hS
          · exact Or.inr (hsubsumed _ h2)
    | clearOp =>
      refine ih _ S (emptyPool_wf cfg) ?_ ?_
      · intro h' e' he'
        simp [Blobpool.clear, emptyPool, dictGet] at he'
      · intro e1 e2 h1 h2 hkey
        apply hcons e1 e2 _ _ hkey
        · rcases h1 with hS | h1
          · exact Or.inl hS
          · exact Or.inr (hsubsumed _ h1)
        · rcases h2 with hS | h2
          · exact Or.inl hS
          · exact Or.inr (hsubsumed _ h2)

/-! ## Concrete pools and entries used by counterexamples and witnesses -/

def mkEntry (h : TxHash) (s : Address) (n fee tip size blobs : Int) : BlobTxEntry :=
  { tx_hash := h, sender := s, nonce := n, gas_fee_cap := fee, gas_tip_cap := tip,
    blob_gas_price := 0, tx_size := size, blob_count := blobs, cell_mask := ALL_ONES,
    received_at := 0, announced_to := [] }

def cexCfg : SimConfig :=
  { blobpool_max_bytes := 1000, max_txs_per_sender := 16, max_blobs_per_block := 6 }

def cexC1pool : Blobpool :=
  runOps cexCfg [PoolOp.addOp (mkEntry 1 1 0 10 1 600 1), PoolOp.addOp (mkEntry 2 2 0 10 5 300 1)]

def cexC1entry : BlobTxEntry := mkEntry 3 3 0 10 3 800 1

def cexC2cfg : SimConfig :=
  { blobpool_max_bytes := 1000000, max_txs_per_sender := 16, max_blobs_per_block := 6 }

def cexC2ops : List PoolOp :=
  [PoolOp.addOp (mkEntry 1 1 0 10 1 100 1), PoolOp.addOp (mkEntry 1 2 0 10 1 50 1)]

def cexC3old : BlobTxEntry := mkEntry 1 1 0 1 0 10 1

def cexC3new : BlobTxEntry := mkEntry 2 1 0 1 0 10 1

def cexC3pool : Blobpool := runOps cexCfg [PoolOp.addOp cexC3old]

/-- Ceiling division on integers (the `⌈x × 110 / 100⌉` of the claim). -/
def ceilDiv (a b : Int) : Int := -(Int.fdiv (-a) b)

def cexC8pool : Blobpool :=
  runOps cexCfg [PoolOp.addOp (mkEntry 2 2 0 10 5 600 1), PoolOp.addOp (mkEntry 1 1 0 10 5 300 1)]

def cexC8entry : BlobTxEntry := mkEntry 3 3 0 10 10 500 1

/-! ## Claim C1 -/

/-- C1 (amended): `Blobpool.add` leaves the pool untouched when it raises
`RBFRejected` or (from an invariant-satisfying pool) `SenderLimitExceeded`;
when it raises `PoolFull`, the RBF removal and the capacity evictions made
before the failure stay committed — the pool still satisfies the invariants
and has only lost entries (no partial insert), but it is not rolled back. -/
theorem claim_C1_add_failure_atomicity (cfg : SimConfig) (p : Blobpool)
    (e : BlobTxEntry) (w : PoolWF cfg p) :
    (∀ h0, (Blobpool.add cfg p e).2 = AddOutcome.rbfRejected h0 →
      (Blobpool.add cfg p e).1 = p) ∧
    ((Blobpool.add cfg p e).2 = AddOutcome.senderLimitExceeded →
      (Blobpool.add cfg p e).1 = p) ∧
    ((Blobpool.add cfg p e).2 = AddOutcome.poolFull →
      PoolWF cfg (Blobpool.add cfg p e).1 ∧
      (∀ h' e', dictGet (Blobpool.add cfg p e).1.txs h' = some e' →
        dictGet p.txs h' = some e')) :=
  ⟨fun _ h => add_rbfRejected_unchanged h,
   fun h => add_sle_unchanged w h,
   fun h => add_poolFull_state w h⟩

/-- C1 witness: the amended claim instantiated at a concrete configuration,
pool and entry. -/
theorem claim_C1_witness :
    (∀ h0, (Blobpool.add cexCfg emptyPool cexC1entry).2 = AddOutcome.rbfRejected h0 →
      (Blobpool.add cexCfg emptyPool cexC1entry).1 = emptyPool) ∧
    ((Blobpool.add cexCfg emptyPool cexC1entry).2 = AddOutcome.senderLimitExceeded →
      (Blobpool.add cexCfg emptyPool cexC1entry).1 = emptyPool) ∧
    ((Blobpool.add cexCfg emptyPool cexC1entry).2 = AddOutcome.poolFull →
      PoolWF cexCfg (Blobpool.add cexCfg emptyPool cexC1entry).1 ∧
      (∀ h' e', dictGet (Blobpool.add cexCfg emptyPool cexC1entry).1.txs h' = some e' →
        dictGet emptyPool.txs h' = some e')) :=
  claim_C1_add_failure_atomicity cexCfg emptyPool cexC1entry (emptyPool_wf cexCfg)

/-- C1 counterexample: from a reachable two-entry pool, adding an entry that
triggers one eviction and then fails with `PoolFull` leaves the pool changed
(the tip-1 entry was evicted and not restored), refuting the claim that every
failing `add` is a no-op on the pool. -/
theorem claim_C1_counterexample :
    (Blobpool.add cexCfg cexC1pool cexC1entry).2 = AddOutcome.poolFull ∧
    (Blobpool.add cexCfg cexC1pool cexC1entry).1 ≠ cexC1pool ∧
    dictGet cexC1pool.txs 1 ≠ none ∧
    dictGet (Blobpool.add cexCfg cexC1pool cexC1entry).1.txs 1 = none := by
  decide

/-! ## Claim C2 -/

/-- C2 (amended): after any sequence of Blobpool operations starting from the
empty pool, the invariant `total_size = Σ entry.tx_size` and
`by_sender[s][n] = h ⇔ entries[h].sender = s ∧ entries[h].nonce = n` holds —
provided no two `add` calls pass entries with the same `tx_hash` but
different `(sender, nonce)` (which real content-addressed hashes guarantee;
without it the unchecked `_txs[tx_hash] = entry` overwrite breaks both
invariants). -/
theorem claim_C2_pool_invariant (cfg : SimConfig) (ops : List PoolOp)
    (hc : HashConsistent ops) : ClaimInv (runOps cfg ops) := by
  have hw : PoolWF cfg (runOps cfg ops) := by
    unfold runOps
    refine runOps_aux ops emptyPool (fun _ => False) (emptyPool_wf cfg) ?_ ?_
    · intro h e he
      simp [emptyPool, dictGet] at he
    · intro e1 e2 h1 h2 hkey
      rcases h1 with hF | h1
      · exact hF.elim
      rcases h2 with hF | h2
      · exact hF.elim
      exact hc e1 h1 e2 h2 hkey
  exact hw.2.2.2.2.2

/-- C2 witness: the amended claim instantiated at a concrete four-operation
sequence (two adds, a cell-mask merge and a removal). -/
theorem claim_C2_witness :
    ClaimInv (runOps cexCfg
      [PoolOp.addOp (mkEntry 1 1 0 10 1 100 1), PoolOp.addOp (mkEntry 2 2 0 10 2 100 1),
        PoolOp.mergeCellsOp 1 7, PoolOp.removeOp 2]) :=
  claim_C2_pool_invariant cexCfg
    [PoolOp.addOp (mkEntry 1 1 0 10 1 100 1), PoolOp.addOp (mkEntry 2 2 0 10 2 100 1),
      PoolOp.mergeCellsOp 1 7, PoolOp.removeOp 2]
    (by decide)

/-- C2 counterexample: two `add` calls that share a `tx_hash` but use
different senders leave `total_size = 150` while the stored entries sum to
`50`, so the invariant fails on a completed operation sequence from the empty
pool, refuting the claim as stated (which has no hash-consistency proviso). -/
theorem claim_C2_counterexample : ¬ ClaimInv (runOps cexC2cfg cexC2ops) := by
  intro hinv
  have hsum := hinv.1
  have h1 : (runOps cexC2cfg cexC2ops).total_size = 150 := by decide
  have h2 : ((runOps cexC2cfg cexC2ops).txs.map (fun kv => kv.2.tx_size)).sum = 50 := by
    decide
  rw [h1, h2] at hsum
  simp at hsum

/-! ## Claim C3 -/

/-- C3 (amended): with an entry `e_old` stored under the incoming entry's
`(sender, nonce)`, `Blobpool.add` raises `RBFRejected(h_old)` exactly when
the bump check with FLOOR division fails, i.e. unless
`e.gas_fee_cap ≥ ⌊e_old.gas_fee_cap × 110 / 100⌋` and
`e.gas_tip_cap ≥ ⌊e_old.gas_tip_cap × 110 / 100⌋`; on rejection the pool is
unchanged, and when the check passes `e_old` is removed (its hash is gone
from the pool unless it equals the new entry's hash) and any returned
`AddResult` carries `replaced = h_old`. -/
theorem claim_C3_rbf_rule {cfg : SimConfig} {p : Blobpool} {e : BlobTxEntry}
    {h_old : TxHash} {e_old : BlobTxEntry} (w : PoolWF cfg p)
    (hsn : senderNonceHash p e.sender e.nonce = some h_old)
    (hold : dictGet p.txs h_old = some e_old) :
    ((Blobpool.add cfg p e).2 = AddOutcome.rbfRejected h_old ↔
      ¬ (Int.fdiv (e_old.gas_fee_cap * 110) 100 ≤ e.gas_fee_cap ∧
         Int.fdiv (e_old.gas_tip_cap * 110) 100 ≤ e.gas_tip_cap)) ∧
    (¬ canReplace e_old e → (Blobpool.add cfg p e).1 = p) ∧
    (∀ r ev, (Blobpool.add cfg p e).2 = AddOutcome.ok r ev → r = some h_old) ∧
    (canReplace e_old e → h_old ≠ e.tx_hash →
      dictGet (Blobpool.add cfg p e).1.txs h_old = none) :=
  add_rbf_char w hsn hold

/-- C3 witness: the amended RBF rule applied to a concrete one-entry pool
(`e_old` has `gas_fee_cap = 1`) and a same-sender-nonce replacement. -/
theorem claim_C3_witness :
    ((Blobpool.add cexCfg cexC3pool cexC3new).2 = AddOutcome.rbfRejected 1 ↔
      ¬ (Int.fdiv (cexC3old.gas_fee_cap * 110) 100 ≤ cexC3new.gas_fee_cap ∧
         Int.fdiv (cexC3old.gas_tip_cap * 110) 100 ≤ cexC3new.gas_tip_cap)) ∧
    (¬ canReplace cexC3old cexC3new → (Blobpool.add cexCfg cexC3pool cexC3new).1 = cexC3pool) ∧
    (∀ r ev, (Blobpool.add cexCfg cexC3pool cexC3new).2 = AddOutcome.ok r ev →
      r = some 1) ∧
    (canReplace cexC3old cexC3new → (1 : TxHash) ≠ cexC3new.tx_hash →
      dictGet (Blobpool.add cexCfg cexC3pool cexC3new).1.txs 1 = none) :=
  claim_C3_rbf_rule
    (add_spec (emptyPool_wf cexCfg)
      (by
        intro ent hent
        simp [emptyPool, dictGet] at hent)).1
    (by decide) (by decide)

/-- C3 counterexample: with `e_old.gas_fee_cap = 1` the code's floor check
`1 ≥ 1*110//100 = 1` lets the replacement through (result `replaced = 1`),
but the claim's ceiling check demands `gas_fee_cap ≥ ⌈110/100⌉ = 2`, so the
claim as stated (ceiling division) predicts `RBFRejected` and is false. -/
theorem claim_C3_counterexample :
    (Blobpool.add cexCfg cexC3pool cexC3new).2 = AddOutcome.ok (some 1) [] ∧
    ¬ (ceilDiv (cexC3old.gas_fee_cap * 110) 100 ≤ cexC3new.gas_fee_cap) := by
  decide

/-! ## Claim C8 -/

/-- C8 (amended): when `_evict_lowest_priority` evicts, the evicted entry is
the FIRST entry in dict-iteration (insertion) order among the non-excluded
candidates achieving the minimum `effective_tip` — every earlier candidate
has a strictly larger tip — and it beats `min_priority`; ties are thus broken
by insertion order, not by `tx_hash` ordering. -/
theorem claim_C8_eviction_tiebreak {p : Blobpool} {ex : Option TxHash}
    {mp : Option Int} {p' : Blobpool} {h : TxHash}
    (he : evictLowestPriority p ex mp = (p', some h)) :
    ∃ r l1 l2, evictionCandidates p.txs ex = l1 ++ r :: l2 ∧ r.tx_hash = h ∧
      (∀ y ∈ l1, r.effective_tip < y.effective_tip) ∧
      (∀ y ∈ evictionCandidates p.txs ex, r.effective_tip ≤ y.effective_tip) ∧
      (∀ mpv, mp = some mpv → r.effective_tip < mpv) ∧
      p' = removeInternal p h := by
  obtain ⟨r, hfl, hrh, hp', hmp⟩ := evictLowestPriority_some he
  obtain ⟨l1, l2, hsplit, hl1, hle⟩ := findLowest_spec hfl
  exact ⟨r, l1, l2, hsplit, hrh, hl1, hle, hmp, hp'⟩

/-- C8 witness: the amended tie-break rule applied to a concrete pool holding
two tip-5 entries (hash 2 inserted first, hash 1 second). -/
theorem claim_C8_witness :
    ∃ r l1 l2, evictionCandidates cexC8pool.txs (some 3) = l1 ++ r :: l2 ∧
      r.tx_hash = 2 ∧
      (∀ y ∈ l1, r.effective_tip < y.effective_tip) ∧
      (∀ y ∈ evictionCandidates cexC8pool.txs (some 3),
        r.effective_tip ≤ y.effective_tip) ∧
      (∀ mpv, (some (10 : Int)) = some mpv → r.effective_tip < mpv) ∧
      (removeInternal cexC8pool 2, some 2).1 = removeInternal cexC8pool 2 :=
  claim_C8_eviction_tiebreak (by decide)

/-- C8 counterexample: two entries tie at `effective_tip = 5`; the entry with
hash 2 was inserted first and is evicted by `add`, while the claim demands
the lowest hash (1) be evicted first. -/
theorem claim_C8_counterexample :
    (Blobpool.add cexCfg cexC8pool cexC8entry).2 = AddOutcome.ok none [2] ∧
    (dictGet cexC8pool.txs 1).map BlobTxEntry.effective_tip = some 5 ∧
    (dictGet cexC8pool.txs 2).map BlobTxEntry.effective_tip = some 5 ∧
    dictGet (Blobpool.add cexCfg cexC8pool cexC8entry).1.txs 1 = some (mkEntry 1 1 0 10 5 300 1) := by
  decide

/-! ## Event model (`core/events.py`, `core/actor.py`, `core/simulator.py`) -/

inductive PayloadKind where
  | message (sender : ActorId)
  | sendRequest (src dst : ActorId)
  | timer (kind : Nat)
  | command
deriving DecidableEq

structure Event where
  timestamp : Rat
  target_id : ActorId
  payload : PayloadKind
  priority : Int := 0
  sequence : Int := 0
deriving DecidableEq

instance : Inhabited Event :=
  ⟨{ timestamp := 0, target_id := 0, payload := PayloadKind.command }⟩

/-- `Event.__lt__` generated by `@dataclass(order=True)`: lexicographic on
the compare-enabled fields in declaration order, `(timestamp, priority,
sequence)`; `target_id` and `payload` are `field(compare=False)`. -/
def eventLt (a b : Event) : Prop :=
  a.timestamp < b.timestamp ∨
    (a.timestamp = b.timestamp ∧
      (a.priority < b.priority ∨
        (a.priority = b.priority ∧ a.sequence < b.sequence)))

instance (a b : Event) : Decidable (eventLt a b) := by
  unfold eventLt
  infer_instance

def evKey (e : Event) : Lex (Rat × Lex (Int × Int)) :=
  toLex (e.timestamp, toLex (e.priority, e.sequence))

theorem eventLt_iff_key {a b : Event} : eventLt a b ↔ evKey a < evKey b := by
  unfold eventLt evKey
  constructor
  · intro h
    rcases h with h | ⟨h1, h2⟩
    · exact Prod.Lex.left _ _ h
    · rcases h2 with h2 | ⟨h3, h4⟩
      · rw [show a.timestamp = b.timestamp from h1]
        exact Prod.Lex.right _ (Prod.Lex.left _ _ h2)
      · rw [show a.timestamp = b.timestamp from h1]
        refine Prod.Lex.right _ ?_
        rw [show a.priority = b.priority from h3]
        exact Prod.Lex.right _ h4
  · intro h
    rcases (Prod.Lex.lt_iff _ _).mp h with h | ⟨h1, h2⟩
    · exact Or.inl h
    · refine Or.inr ⟨h1, ?_⟩
      rcases (Prod.Lex.lt_iff _ _).mp h2 with h2 | ⟨h3, h4⟩
      · exact Or.inl h2
      · exact Or.inr ⟨h3, h4⟩

theorem eventLt_irrefl (a : Event) : ¬ eventLt a a := by
  rw [eventLt_iff_key]
  exact lt_irrefl _

theorem eventLt_asymm {a b : Event} (h : eventLt a b) : ¬ eventLt b a := by
  rw [eventLt_iff_key] at h ⊢
  exact not_lt_of_lt h

theorem eventLt_trans {a b c : Event} (h1 : eventLt a b) (h2 : eventLt b c) :
    eventLt a c := by
  rw [eventLt_iff_key] at h1 h2 ⊢
  exact lt_trans h1 h2

theorem not_eventLt_trans {a b c : Event} (h1 : ¬ eventLt b a) (h2 : ¬ eventLt c b) :
    ¬ eventLt c a := by
  rw [eventLt_iff_key] at h1 h2 ⊢
  rw [not_lt] at h1 h2 ⊢
  exact le_trans h1 h2

/-! ## CPython `heapq`, transcribed (fuel-structural so terms evaluate) -/

/-- `heapq._siftdown(heap, startpos, pos)` with `newitem = heap[pos]`.  Each
iteration strictly decreases `pos`, so any `fuel ≥ pos` gives the exact
CPython behaviour (callers pass `heap.length + 1`). -/
def siftdownLoop : Nat → List Event → Nat → Nat → Event → List Event
  | 0, heap, _, pos, newitem => heap.set pos newitem
  | fuel + 1, heap, startpos, pos, newitem =>
    if startpos < pos then
      if eventLt newitem (heap.getD ((pos - 1) / 2) default) then
        siftdownLoop fuel (heap.set pos (heap.getD ((pos - 1) / 2) default))
          startpos ((pos - 1) / 2) newitem
      else heap.set pos newitem
    else heap.set pos newitem

/-- `heapq.heappush`. -/
def heappush (heap : List Event) (item : Event) : List Event :=
  siftdownLoop (heap.length + 1) (heap ++ [item]) 0 heap.length item

/-- The child CPython's `_siftup` walks to: the right child when it exists
and the left child is not smaller, else the left child. -/
def suChild (heap : List Event) (pos : Nat) : Nat :=
  if 2 * pos + 2 < heap.length ∧
      ¬ eventLt (heap.getD (2 * pos + 1) default) (heap.getD (2 * pos + 2) default) then
    2 * pos + 2
  else 2 * pos + 1

/-- `heapq._siftup(heap, pos)` with `newitem = heap[pos]`: walk down moving
the smaller child up, place the item at the leaf, then `_siftdown` back
towards `startpos`.  Each iteration strictly increases `pos` below
`heap.length`, so any `fuel ≥ heap.length` gives the exact CPython
behaviour. -/
def siftupLoop : Nat → List Event → Nat → Event → Nat → List Event
  | 0, heap, pos, newitem, startpos =>
    siftdownLoop (heap.length + 1) (heap.set pos newitem) startpos pos newitem
  | fuel + 1, heap, pos, newitem, startpos =>
    if 2 * pos + 1 < heap.length then
      siftupLoop fuel (heap.set pos (heap.getD (suChild heap pos) default))
        (suChild heap pos) newitem startpos
    else siftdownLoop (heap.length + 1) (heap.set pos newitem) startpos pos newitem

/-- `heapq.heappop`: pop the last element; if the heap is still non-empty,
remember the root, move the last element to the root and `_siftup(heap, 0)`.
An empty heap is Python's `IndexError`, modelled as `none`. -/
def heappop (heap : List Event) : Option (Event × List Event) :=
  match heap.getLast? with
  | none => none
  | some lastelt =>
    let rest := heap.dropLast
    if rest.isEmpty then some (lastelt, [])
    else some (rest.headD default, siftupLoop rest.length (rest.set 0 lastelt) 0 lastelt 0)

/-! ## Indexed-list lemmas for the heap proofs -/

theorem getD_set_eq {l : List Event} {i : Nat} (h : i < l.length) (v d : Event) :
    (l.set i v).getD i d = v := by
  induction l generalizing i with
  | nil => simp at h
  | cons x xs ih =>
    cases i with
    | zero => simp [List.set, List.getD]
    | succ n =>
      simp at h
      simpa [List.set, List.getD] using ih (by omega)

theorem getD_set_ne {l : List Event} {i j : Nat} (h : i ≠ j) (v d : Event) :
    (l.set i v).getD j d = l.getD j d := by
  induction l generalizing i j with
  | nil => simp [List.set]
  | cons x xs ih =>
    cases i with
    | zero =>
      cases j with
      | zero => exact absurd rfl h
      | succ m => simp [List.set, List.getD]
    | succ n =>
      cases j with
      | zero => simp [List.set, List.getD]
      | succ m =>
        simpa [List.set, List.getD] using ih (by omega)

theorem getD_mem {l : List Event} {i : Nat} (h : i < l.length) (d : Event) :
    l.getD i d ∈ l := by
  induction l generalizing i with
  | nil => simp at h
  | cons x xs ih =>
    cases i with
    | zero => simp [List.getD]
    | succ n =>
      simp at h
      simpa [List.getD] using Or.inr (ih (by omega))

theorem mem_set_subset {l : List Event} {i : Nat} {v x : Event}
    (h : x ∈ l.set i v) : x ∈ l ∨ x = v := by
  induction l generalizing i with
  | nil => simp [List.set] at h
  | cons y ys ih =>
    cases i with
    | zero =>
      rcases List.mem_cons.mp h with h | h
      · exact Or.inr h
      · exact Or.inl (List.mem_cons_of_mem y h)
    | succ n =>
      rcases List.mem_cons.mp h with h | h
      · exact Or.inl (by rw [h]; exact List.mem_cons_self y ys)
      · rcases ih h with h | h
        · exact Or.inl (List.mem_cons_of_mem y h)
        · exact Or.inr h

/-! ## The binary-heap invariant and CPython sift correctness -/

/-- Min-heap property: no child compares less than its parent. -/
def IsHeap (l : List Event) : Prop :=
  ∀ i j, j < l.length → (j = 2 * i + 1 ∨ j = 2 * i + 2) →
    ¬ eventLt (l.getD j default) (l.getD i default)

theorem isHeap_nil : IsHeap [] := by
  intro i j hj _
  simp at hj

theorem isHeap_singleton (e : Event) : IsHeap [e] := by
  intro i j hj hc
  simp at hj
  omega

/-- In a heap the root is a minimum. -/
theorem isHeap_root_min {l : List Event} (hh : IsHeap l) :
    ∀ k, k < l.length → ¬ eventLt (l.getD k default) (l.getD 0 default) := by
  intro k
  induction k using Nat.strong_induction_on with
  | _ k ih =>
    intro hk
    cases k with
    | zero => exact eventLt_irrefl _
    | succ m =>
      have hparent : (m + 1 - 1) / 2 < m + 1 := by omega
      have hchild : m + 1 = 2 * ((m + 1 - 1) / 2) + 1 ∨
          m + 1 = 2 * ((m + 1 - 1) / 2) + 2 := by omega
      have h1 : ¬ eventLt (l.getD (m + 1) default) (l.getD ((m + 1 - 1) / 2) default) :=
        hh _ _ hk hchild
      have h2 : ¬ eventLt (l.getD ((m + 1 - 1) / 2) default) (l.getD 0 default) :=
        ih _ hparent (lt_trans hparent hk)
      exact not_eventLt_trans h2 h1

theorem getD_append_left {l l2 : List Event} {i : Nat} (h : i < l.length) (d : Event) :
    (l ++ l2).getD i d = l.getD i d := by
  induction l generalizing i with
  | nil => simp at h
  | cons x xs ih =>
    cases i with
    | zero => simp [List.getD]
    | succ n =>
      simp at h
      simpa [List.getD] using ih (by omega)

theorem getD_append_single {l : List Event} (x d : Event) :
    (l ++ [x]).getD l.length d = x := by
  induction l with
  | nil => simp [List.getD]
  | cons y ys ih => simp [List.getD, ih]

theorem getD_dropLast {l : List Event} {i : Nat} (h : i + 1 < l.length) (d : Event) :
    l.dropLast.getD i d = l.getD i d := by
  induction l generalizing i with
  | nil => simp at h
  | cons x xs ih =>
    cases xs with
    | nil => simp at h
    | cons y ys =>
      cases i with
      | zero => simp [List.getD]
      | succ n =>
        simp at h
        simpa [List.getD] using ih (by simpa using h)

theorem mem_set_self {l : List Event} {i : Nat} (h : i < l.length) (v : Event) :
    v ∈ l.set i v := by
  induction l generalizing i with
  | nil => simp at h
  | cons x xs ih =>
    cases i with
    | zero => simp
    | succ n =>
      simp at h
      exact List.mem_cons_of_mem x (ih (by omega))

theorem exists_getD_of_mem {l : List Event} {x : Event} (h : x ∈ l) :
    ∃ i, i < l.length ∧ l.getD i default = x := by
  induction l with
  | nil => simp at h
  | cons y ys ih =>
    rcases List.mem_cons.mp h with h | h
    · exact ⟨0, by simp, by simp [List.getD, h.symm]⟩
    · obtain ⟨i, hi, hg⟩ := ih h
      exact ⟨i + 1, by simpa using hi, by simpa [List.getD] using hg⟩

theorem siftdown_length :
    ∀ (fuel : Nat) (heap : List Event) (s pos : Nat) (newitem : Event),
      (siftdownLoop fuel heap s pos newitem).length = heap.length := by
  intro fuel
  induction fuel with
  | zero => intro heap s pos newitem; simp [siftdownLoop]
  | succ n ih =>
    intro heap s pos newitem
    unfold siftdownLoop
    split
    · split
      · rw [ih]
        simp
      · simp
    · simp

theorem siftup_length :
    ∀ (fuel : Nat) (heap : List Event) (pos : Nat) (newitem : Event) (s : Nat),
      (siftupLoop fuel heap pos newitem s).length = heap.length := by
  intro fuel
  induction fuel with
  | zero => intro heap pos newitem s; simp [siftupLoop, siftdown_length]
  | succ n ih =>
    intro heap pos newitem s
    unfold siftupLoop
    split
    · rw [ih]
      simp
    · rw [siftdown_length]
      simp

theorem siftdown_subset :
    ∀ (fuel : Nat) (heap : List Event) (s pos : Nat) (newitem : Event),
      pos < heap.length →
      ∀ x ∈ siftdownLoop fuel heap s pos newitem, x ∈ heap ∨ x = newitem := by
  intro fuel
  induction fuel with
  | zero =>
    intro heap s pos newitem _ x hx
    exact mem_set_subset hx
  | succ n ih =>
    intro heap s pos newitem hp x hx
    unfold siftdownLoop at hx
    split at hx
    · split at hx
      · rename_i hsp hlt
        have hpar : (pos - 1) / 2 < heap.length := by omega
        have hsub := ih (heap.set pos (heap.getD ((pos - 1) / 2) default)) s
          ((pos - 1) / 2) newitem (by simpa using hpar) x hx
        rcases hsub with hsub | hsub
        · rcases mem_set_subset hsub with hsub | hsub
          · exact Or.inl hsub
          · exact Or.inl (hsub ▸ getD_mem hpar default)
        · exact Or.inr hsub
      · exact mem_set_subset hx
    · exact mem_set_subset hx

theorem suChild_lt_length {heap : List Event} {pos : Nat}
    (h : 2 * pos + 1 < heap.length) : suChild heap pos < heap.length := by
  unfold suChild
  split
  · rename_i hc
    exact hc.1
  · exact h

theorem siftup_subset :
    ∀ (fuel : Nat) (heap : List Event) (pos : Nat) (newitem : Event) (s : Nat),
      pos < heap.length →
      ∀ x ∈ siftupLoop fuel heap pos newitem s, x ∈ heap ∨ x = newitem := by
  intro fuel
  induction fuel with
  | zero =>
    intro heap pos newitem s hp x hx
    unfold siftupLoop at hx
    have hsub := siftdown_subset (heap.length + 1) (heap.set pos newitem) s pos newitem
      (by simpa using hp) x hx
    rcases hsub with hsub | hsub
    · rcases mem_set_subset hsub with hsub | hsub
      · exact Or.inl hsub
      · exact Or.inr hsub
    · exact Or.inr hsub
  | succ n ih =>
    intro heap pos newitem s hp x hx
    unfold siftupLoop at hx
    split at hx
    · rename_i hc
      have hcl := suChild_lt_length hc
      have hsub := ih (heap.set pos (heap.getD (suChild heap pos) default))
        (suChild heap pos) newitem s (by simpa using hcl) x hx
      rcases hsub with hsub | hsub
      · rcases mem_set_subset hsub with hsub | hsub
        · exact Or.inl hsub
        · exact Or.inl (hsub ▸ getD_mem hcl default)
      · exact Or.inr hsub
    · have hsub := siftdown_subset (heap.length + 1) (heap.set pos newitem) s pos newitem
        (by simpa using hp) x hx
      rcases hsub with hsub | hsub
      · rcases mem_set_subset hsub with hsub | hsub
        · exact Or.inl hsub
        · exact Or.inr hsub
      · exact Or.inr hsub

theorem siftdown_mem_newitem :
    ∀ (fuel : Nat) (heap : List Event) (s pos : Nat) (newitem : Event),
      pos < heap.length → newitem ∈ siftdownLoop fuel heap s pos newitem := by
  intro fuel
  induction fuel with
  | zero =>
    intro heap s pos newitem hp
    exact mem_set_self hp newitem
  | succ n ih =>
    intro heap s pos newitem hp
    unfold siftdownLoop
    split
    · split
      · rename_i hsp hlt
        exact ih _ s ((pos - 1) / 2) newitem (by simp; omega)
      · exact mem_set_self hp newitem
    · exact mem_set_self hp newitem

theorem heappush_length (heap : List Event) (item : Event) :
    (heappush heap item).length = heap.length + 1 := by
  unfold heappush
  rw [siftdown_length]
  simp

theorem heappush_subset {heap : List Event} {item : Event} :
    ∀ x ∈ heappush heap item, x ∈ heap ∨ x = item := by
  intro x hx
  unfold heappush at hx
  have hsub := siftdown_subset (heap.length + 1) (heap ++ [item]) 0 heap.length item
    (by simp) x hx
  rcases hsub with hsub | hsub
  · rcases List.mem_append.mp hsub with hsub | hsub
    · exact Or.inl hsub
    · exact Or.inr (by simpa using hsub)
  · exact Or.inr hsub

theorem heappush_mem (heap : List Event) (item : Event) :
    item ∈ heappush heap item := by
  unfold heappush
  exact siftdown_mem_newitem (heap.length + 1) (heap ++ [item]) 0 heap.length item (by simp)

/-! ## Heap-property preservation -/

/-- Invariant of CPython's `_siftdown` walk (for `startpos = 0`): with the
new item placed at the hole `pos`, every parent-child edge not entering
`pos` satisfies the heap order, and the children of `pos` (if any)
dominate the value at `pos`'s parent. -/
def SDInv (heap : List Event) (pos : Nat) (newitem : Event) : Prop :=
  (∀ i j, j < heap.length → (j = 2 * i + 1 ∨ j = 2 * i + 2) → j ≠ pos →
    ¬ eventLt ((heap.set pos newitem).getD j default)
      ((heap.set pos newitem).getD i default)) ∧
  (0 < pos → ∀ j, j < heap.length → (j = 2 * pos + 1 ∨ j = 2 * pos + 2) →
    ¬ eventLt (heap.getD j default) (heap.getD ((pos - 1) / 2) default))

theorem siftdown_isHeap :
    ∀ (fuel : Nat) (heap : List Event) (pos : Nat) (newitem : Event),
      pos ≤ fuel → pos < heap.length → SDInv heap pos newitem →
      IsHeap (siftdownLoop fuel heap 0 pos newitem) := by
  intro fuel
  induction fuel with
  | zero =>
    intro heap pos newitem hf hp hinv
    have hp0 : pos = 0 := Nat.le_zero.mp hf
    subst hp0
    unfold siftdownLoop
    intro i j hj hc
    have hjne : j ≠ 0 := by omega
    have hj' : j < heap.length := by simpa using hj
    exact hinv.1 i j hj' hc hjne
  | succ n ih =>
    intro heap pos newitem hf hp hinv
    unfold siftdownLoop
    split
    · rename_i hpos
      split
      · rename_i hswap
        have hppar : (pos - 1) / 2 < pos := by omega
        have hparlt : (pos - 1) / 2 < heap.length := by omega
        apply ih
        · omega
        · simpa using hparlt
        · constructor
          · intro i j hj hc hjne
            have hj' : j < heap.length := by simpa using hj
            by_cases hjp : j = pos
            · have hi : i = (pos - 1) / 2 := by omega
              subst hi
              rw [hjp, getD_set_ne (by omega : (pos - 1) / 2 ≠ pos),
                getD_set_eq hp,
                getD_set_eq (by simpa using hparlt)]
              exact eventLt_asymm hswap
            · by_cases hip : i = pos
              · rw [hip, getD_set_ne (Ne.symm hjne),
                  getD_set_ne (fun he => hjp he.symm),
                  getD_set_ne (by omega : (pos - 1) / 2 ≠ pos),
                  getD_set_eq hp]
                exact hinv.2 hpos j hj' (by omega)
              · by_cases hipp : i = (pos - 1) / 2
                · rw [hipp, getD_set_ne (Ne.symm hjne),
                    getD_set_ne (fun he => hjp he.symm),
                    getD_set_eq (by simpa using hparlt)]
                  have hedge := hinv.1 ((pos - 1) / 2) j hj' (by omega) hjp
                  rw [getD_set_ne (fun he => hjp he.symm),
                    getD_set_ne (by omega : pos ≠ (pos - 1) / 2)] at hedge
                  intro hlt
                  exact hedge (eventLt_trans hlt hswap)
                · rw [getD_set_ne (Ne.symm hjne),
                    getD_set_ne (fun he => hjp he.symm),
                    getD_set_ne (fun he => hipp he.symm),
                    getD_set_ne (fun he => hip he.symm)]
                  have hedge := hinv.1 i j hj' hc hjp
                  rw [getD_set_ne (fun he => hjp he.symm),
                    getD_set_ne (fun he => hip he.symm)] at hedge
                  exact hedge
          · intro hppos j hj hcj
            have hj' : j < heap.length := by simpa using hj
            have hgne : ((pos - 1) / 2 - 1) / 2 ≠ pos := by omega
            have hpchild : (pos - 1) / 2 = 2 * (((pos - 1) / 2 - 1) / 2) + 1 ∨
                (pos - 1) / 2 = 2 * (((pos - 1) / 2 - 1) / 2) + 2 := by omega
            have hgp := hinv.1 (((pos - 1) / 2 - 1) / 2) ((pos - 1) / 2) hparlt
              hpchild (by omega)
            rw [getD_set_ne (by omega : pos ≠ (pos - 1) / 2),
              getD_set_ne (Ne.symm hgne)] at hgp
            by_cases hjp : j = pos
            · rw [hjp, getD_set_eq hp, getD_set_ne (Ne.symm hgne)]
              exact hgp
            · rw [getD_set_ne (fun he => hjp he.symm),
                getD_set_ne (Ne.symm hgne)]
              have hpj := hinv.1 ((pos - 1) / 2) j hj' hcj hjp
              rw [getD_set_ne (fun he => hjp he.symm),
                getD_set_ne (by omega : pos ≠ (pos - 1) / 2)] at hpj
              exact not_eventLt_trans hgp hpj
      · rename_i hnoswap
        intro i j hj hc
        have hj' : j < heap.length := by simpa using hj
        by_cases hjp : j = pos
        · have hi : i = (pos - 1) / 2 := by omega
          subst hi
          rw [hjp, getD_set_eq hp, getD_set_ne (by omega : pos ≠ (pos - 1) / 2)]
          exact hnoswap
        · exact hinv.1 i j hj' hc hjp
    · rename_i hpos
      have hp0 : pos = 0 := by omega
      subst hp0
      intro i j hj hc
      have hjne : j ≠ 0 := by omega
      have hj' : j < heap.length := by simpa using hj
      exact hinv.1 i j hj' hc hjne

theorem heappush_isHeap {heap : List Event} (hh : IsHeap heap) (item : Event) :
    IsHeap (heappush heap item) := by
  unfold heappush
  apply siftdown_isHeap
  · omega
  · simp
  · constructor
    · intro i j hj hc hjne
      have hjlen : j < heap.length := by
        simp at hj
        omega
      have hilen : i < heap.length := by omega
      have hA : ∀ k, k < heap.length →
          (((heap ++ [item]).set heap.length item).getD k default : Event) =
            heap.getD k default := by
        intro k hk
        rw [getD_set_ne (by omega : heap.length ≠ k)]
        exact getD_append_left hk default
      rw [hA j hjlen, hA i hilen]
      exact hh i j hjlen hc
    · intro _ j hj hcj
      simp at hj
      omega

theorem suChild_le {heap : List Event} {pos : Nat} (h : 2 * pos + 1 < heap.length) :
    ∀ j, j < heap.length → (j = 2 * pos + 1 ∨ j = 2 * pos + 2) →
      ¬ eventLt (heap.getD j default) (heap.getD (suChild heap pos) default) := by
  intro j hj hcj
  unfold suChild
  split
  · rename_i hcond
    rcases hcj with hj1 | hj2
    · subst hj1
      exact hcond.2
    · subst hj2
      exact eventLt_irrefl _
  · rename_i hcond
    rcases hcj with hj1 | hj2
    · subst hj1
      exact eventLt_irrefl _
    · subst hj2
      have hlr : ¬¬ eventLt (heap.getD (2 * pos + 1) default)
          (heap.getD (2 * pos + 2) default) := by
        intro hn
        exact hcond ⟨hj, hn⟩
      exact eventLt_asymm (not_not.mp hlr)

theorem suChild_child (heap : List Event) (pos : Nat) :
    suChild heap pos = 2 * pos + 1 ∨ suChild heap pos = 2 * pos + 2 := by
  unfold suChild
  split
  · exact Or.inr rfl
  · exact Or.inl rfl

theorem siftup_isHeap :
    ∀ (fuel : Nat) (heap : List Event) (pos : Nat) (newitem : Event),
      heap.length ≤ 2 * pos + 1 + fuel → pos < heap.length →
      (∀ i j, j < heap.length → (j = 2 * i + 1 ∨ j = 2 * i + 2) → j ≠ pos → i ≠ pos →
        ¬ eventLt (heap.getD j default) (heap.getD i default)) →
      (0 < pos → ∀ j, j < heap.length → (j = 2 * pos + 1 ∨ j = 2 * pos + 2) →
        ¬ eventLt (heap.getD j default) (heap.getD ((pos - 1) / 2) default)) →
      IsHeap (siftupLoop fuel heap pos newitem 0) := by
  intro fuel
  induction fuel with
  | zero =>
    intro heap pos newitem hfl hp ha3 hc3
    unfold siftupLoop
    apply siftdown_isHeap
    · omega
    · simpa using hp
    · constructor
      · intro i j hj hc hjne
        have hj' : j < heap.length := by simpa using hj
        by_cases hip : i = pos
        · exact absurd hj' (by omega)
        · rw [getD_set_ne (fun he => hjne he.symm), getD_set_ne (fun he => hjne he.symm),
            getD_set_ne (fun he => hip he.symm), getD_set_ne (fun he => hip he.symm)]
          exact ha3 i j hj' hc hjne hip
      · intro hppos j hj hcj
        have hj' : j < heap.length := by simpa using hj
        exact absurd hj' (by omega)
  | succ n ih =>
    intro heap pos newitem hfl hp ha3 hc3
    unfold siftupLoop
    split
    · rename_i hlt
      have hclt : suChild heap pos < heap.length := suChild_lt_length hlt
      have hcor := suChild_child heap pos
      have hcge : 2 * pos + 1 ≤ suChild heap pos := by omega
      apply ih
      · simp
        omega
      · simpa using hclt
      · intro i j hj hc hjne hine
        have hj' : j < heap.length := by simpa using hj
        by_cases hjp : j = pos
        · have hi : i = (pos - 1) / 2 := by omega
          subst hi
          rw [hjp, getD_set_eq hp, getD_set_ne (by omega : pos ≠ (pos - 1) / 2)]
          exact hc3 (by omega) (suChild heap pos) hclt hcor
        · by_cases hip : i = pos
          · rw [hip, getD_set_ne (fun he => hjp he.symm), getD_set_eq hp]
            exact suChild_le hlt j hj' (by omega)
          · rw [getD_set_ne (fun he => hjp he.symm), getD_set_ne (fun he => hip he.symm)]
            exact ha3 i j hj' hc hjp hip
      · intro hcpos j hj hcj
        have hj' : j < heap.length := by simpa using hj
        have hpar : (suChild heap pos - 1) / 2 = pos := by omega
        rw [hpar, getD_set_ne (by omega : pos ≠ j), getD_set_eq hp]
        exact ha3 (suChild heap pos) j hj' hcj (by omega) (by omega)
    · rename_i hnlt
      apply siftdown_isHeap
      · omega
      · simpa using hp
      · constructor
        · intro i j hj hc hjne
          have hj' : j < heap.length := by simpa using hj
          by_cases hip : i = pos
          · exact absurd hj' (by omega)
          · rw [getD_set_ne (fun he => hjne he.symm), getD_set_ne (fun he => hjne he.symm),
              getD_set_ne (fun he => hip he.symm), getD_set_ne (fun he => hip he.symm)]
            exact ha3 i j hj' hc hjne hip
        · intro hppos j hj hcj
          have hj' : j < heap.length := by simpa using hj
          exact absurd hj' (by omega)

theorem eventLt_of_ts_lt {a b : Event} (h : a.timestamp < b.timestamp) :
    eventLt a b := by
  rw [eventLt_iff_key]
  exact Prod.Lex.left _ _ h

theorem ts_le_of_not_eventLt {a b : Event} (h : ¬ eventLt a b) :
    b.timestamp ≤ a.timestamp := by
  by_contra hc
  exact h (eventLt_of_ts_lt (lt_of_not_le hc))

theorem eq_dropLast_append {l : List Event} {a : Event} (h : l.getLast? = some a) :
    l = l.dropLast ++ [a] := by
  induction l with
  | nil => simp at h
  | cons x xs ih =>
    cases xs with
    | nil =>
      simp [List.getLast?] at h
      simp [h]
    | cons y ys =>
      rw [List.getLast?_cons_cons] at h
      have := ih h
      simp [List.dropLast]
      exact this

/-- `heappop` on a proper heap: the popped element is a minimum of the
heap, the remainder is a heap, is a sub-collection, and is one shorter. -/
theorem heappop_spec {l : List Event} {e : Event} {rest : List Event}
    (hh : IsHeap l) (hpop : heappop l = some (e, rest)) :
    (∀ x ∈ l, ¬ eventLt x e) ∧ IsHeap rest ∧ (∀ x ∈ rest, x ∈ l) ∧
      rest.length + 1 = l.length := by
  unfold heappop at hpop
  rcases hlast : l.getLast? with _ | lastelt
  · rw [hlast] at hpop
    simp at hpop
  · rw [hlast] at hpop
    have hpop2 : (if l.dropLast.isEmpty then some (lastelt, ([] : List Event))
        else some (l.dropLast.headD default,
          siftupLoop l.dropLast.length (l.dropLast.set 0 lastelt) 0 lastelt 0)) =
        some (e, rest) := hpop
    have hsplit := eq_dropLast_append hlast
    by_cases hre : l.dropLast.isEmpty
    · rw [if_pos hre, Option.some.injEq, Prod.mk.injEq] at hpop2
      obtain ⟨he, hrest⟩ := hpop2
      have hl : l = [e] := by
        rw [hsplit, List.isEmpty_iff.mp hre, he]
        simp
      refine ⟨?_, ?_, ?_, by simp [← hrest, hl]⟩
      · intro x hx
        rw [hl] at hx
        simp at hx
        subst hx
        exact eventLt_irrefl _
      · rw [← hrest]
        exact isHeap_nil
      · intro x hx
        rw [← hrest] at hx
        simp at hx
    · rw [if_neg hre, Option.some.injEq, Prod.mk.injEq] at hpop2
      obtain ⟨he, hrest⟩ := hpop2
      have hdne : l.dropLast ≠ [] := fun hc => hre (by simp [hc])
      have hdpos : 0 < l.dropLast.length := List.length_pos.mpr hdne
      have hlen : l.dropLast.length + 1 = l.length := by
        rw [hsplit]
        simp
      have hhead : l.dropLast.headD default = l.getD 0 default := by
        rw [← getD_dropLast (by omega) default]
        cases hd : l.dropLast with
        | nil => exact absurd hd hdne
        | cons z zs => simp [List.getD]
      have he0 : e = l.getD 0 default := by rw [← he, hhead]
      have hmem : ∀ x ∈ rest, x ∈ l := by
        intro x hx
        rw [← hrest] at hx
        have hsub := siftup_subset l.dropLast.length (l.dropLast.set 0 lastelt) 0
          lastelt 0 (by simpa using hdpos) x hx
        have hlastmem : lastelt ∈ l := by
          rw [hsplit]
          simp
        rcases hsub with hsub | hsub
        · rcases mem_set_subset hsub with hsub | hsub
          · rw [hsplit]
            exact List.mem_append.mpr (Or.inl hsub)
          · exact hsub ▸ hlastmem
        · exact hsub ▸ hlastmem
      refine ⟨?_, ?_, hmem, ?_⟩
      · intro x hx
        obtain ⟨k, hk, hg⟩ := exists_getD_of_mem hx
        rw [← hg, he0]
        exact isHeap_root_min hh k hk
      · rw [← hrest]
        apply siftup_isHeap
        · simp
        · simpa using hdpos
        · intro i j hj hc hjne hine
          have hj' : j < l.dropLast.length := by simpa using hj
          rw [getD_set_ne (fun hq => hjne hq.symm), getD_set_ne (fun hq => hine hq.symm)]
          rw [getD_dropLast (by omega) default, getD_dropLast (by omega) default]
          exact hh i j (by omega) hc
        · intro hc0 _ _ _
          exact absurd hc0 (lt_irrefl 0)
      · rw [← hrest, siftup_length]
        simpa using hlen

/-! ## Simulator kernel (`core/simulator.py`) -/

/-- The mutable fields of `Simulator` relevant to event scheduling. -/
structure SimState where
  current_time : Rat
  queue : List Event
  events_processed : Nat
deriving DecidableEq

/-- `Simulator.schedule`: raising `ValueError` for a past timestamp is
modelled as `none`; otherwise the event is heap-pushed unchanged — in
particular no `sequence` number is assigned to it. -/
def Simulator.schedule (st : SimState) (e : Event) : Option SimState :=
  if e.timestamp < st.current_time then none
  else some { st with queue := heappush st.queue e }

/-- Scheduling a list of events in order, propagating the first failure
(the Python exception aborts the dispatch). -/
def scheduleAll : SimState → List Event → Option SimState
  | st, [] => some st
  | st, e :: es => (Simulator.schedule st e).bind (fun st2 => scheduleAll st2 es)

/-- `Simulator.run(until)`: pop while the queue is non-empty and
`current_time < until`; an event with `timestamp > until` is pushed back
and the loop stops; otherwise `current_time` is advanced to the event's
timestamp and the event dispatched.  The dispatch handler is abstracted as
the list of events the target actor schedules; `fuel` bounds the number of
iterations (the Python loop has no such bound; `none` means it was not
enough, never that the loop misbehaved). -/
def Simulator.run (handler : Event → List Event) :
    Nat → SimState → Rat → Option SimState
  | 0, _, _ => none
  | fuel + 1, st, untilT =>
    if st.queue ≠ [] ∧ st.current_time < untilT then
      match heappop st.queue with
      | none => none
      | some (event, rest) =>
        if untilT < event.timestamp then
          some { st with queue := heappush rest event }
        else
          (scheduleAll
            { current_time := event.timestamp, queue := rest,
              events_processed := st.events_processed + 1 }
            (handler event)).bind
            (fun st2 => Simulator.run handler fuel st2 untilT)
    else some st

/-- `Simulator.deliver_command` (`core/simulator.py:109-118`): the event it
builds carries `priority=0`. -/
def deliverCommandEvent (current_time : Rat) (target : ActorId) : Event :=
  { timestamp := current_time, priority := 0, target_id := target,
    payload := PayloadKind.command }

/-- `Actor.send` (`core/actor.py:86-97`): the send-request event handed to
the network actor carries `priority=0`. -/
def sendEvent (current_time : Rat) (netId sid dst : ActorId) : Event :=
  { timestamp := current_time, priority := 0, target_id := netId,
    payload := PayloadKind.sendRequest sid dst }

/-- `Actor.schedule_timer` (`core/actor.py:99-112`): the self-targeted timer
event carries `priority=1`. -/
def timerEvent (current_time delay : Rat) (sid : ActorId) (kind : Nat) : Event :=
  { timestamp := current_time + delay, priority := 1, target_id := sid,
    payload := PayloadKind.timer kind }

/-- `Network.deliver` (`core/network.py:135-146`): the delivery event for a
network-transmitted message carries `priority=0`. -/
def networkDeliverEvent (current_time delay : Rat) (sender dst : ActorId) : Event :=
  { timestamp := current_time + delay, priority := 0, target_id := dst,
    payload := PayloadKind.message sender }

theorem schedule_spec {st : SimState} {e : Event} {st' : SimState}
    (h : Simulator.schedule st e = some st') :
    st.current_time ≤ e.timestamp ∧ st'.current_time = st.current_time ∧
      st'.queue = heappush st.queue e := by
  unfold Simulator.schedule at h
  split at h
  · exact absurd h (by simp)
  · rename_i hts
    injection h with h
    subst h
    exact ⟨not_lt.mp hts, rfl, rfl⟩

theorem scheduleAll_spec :
    ∀ (es : List Event) (st st' : SimState),
      IsHeap st.queue → (∀ x ∈ st.queue, st.current_time ≤ x.timestamp) →
      scheduleAll st es = some st' →
      st'.current_time = st.current_time ∧ IsHeap st'.queue ∧
        (∀ x ∈ st'.queue, st'.current_time ≤ x.timestamp) := by
  intro es
  induction es with
  | nil =>
    intro st st' hh hts h
    injection h with h
    subst h
    exact ⟨rfl, hh, hts⟩
  | cons e es ih =>
    intro st st' hh hts h
    unfold scheduleAll at h
    rw [Option.bind_eq_some] at h
    obtain ⟨st2, hsc, h2⟩ := h
    obtain ⟨hle, hct, hq⟩ := schedule_spec hsc
    have hh2 : IsHeap st2.queue := by
      rw [hq]
      exact heappush_isHeap hh e
    have hts2 : ∀ x ∈ st2.queue, st2.current_time ≤ x.timestamp := by
      intro x hx
      rw [hq] at hx
      rw [hct]
      rcases heappush_subset x hx with hx | hx
      · exact hts x hx
      · rw [hx]
        exact hle
    obtain ⟨h1, h2, h3⟩ := ih st2 st' hh2 hts2 h2
    exact ⟨h1.trans hct, h2, h3⟩

/-- Claim C9 (amended): from any well-formed kernel state (`_event_queue` a
proper heap with no event in the past), a `run(until)` call that returns
leaves only events with `timestamp ≥ until` in the queue: every event with
`timestamp < until` is popped and dispatched.  Events tying at exactly
`until` may remain (see the counterexample), because the loop guard is
`current_time < until` and the push-back test is `timestamp > until`. -/
theorem claim_C9_run_drains (handler : Event → List Event) :
    ∀ (fuel : Nat) (st : SimState) (untilT : Rat) (st' : SimState),
      IsHeap st.queue → (∀ x ∈ st.queue, st.current_time ≤ x.timestamp) →
      Simulator.run handler fuel st untilT = some st' →
      ∀ x ∈ st'.queue, untilT ≤ x.timestamp := by
  intro fuel
  induction fuel with
  | zero =>
    intro st untilT st' hh hts h
    exact absurd h (by simp [Simulator.run])
  | succ n ih =>
    intro st untilT st' hh hts h
    have h2 : (if st.queue ≠ [] ∧ st.current_time < untilT then
        match heappop st.queue with
        | none => none
        | some (event, rest) =>
          if untilT < event.timestamp then
            some { st with queue := heappush rest event }
          else
            (scheduleAll
              { current_time := event.timestamp, queue := rest,
                events_processed := st.events_processed + 1 }
              (handler event)).bind
              (fun st2 => Simulator.run handler n st2 untilT)
      else some st) = some st' := h
    clear h
    rename' h2 => h
    split at h
    · rename_i hcond
      split at h
      · exact absurd h (by simp)
      · rename_i event rest hpop
        obtain ⟨hmin, hresth, hrestsub, hlen⟩ := heappop_spec hh hpop
        have hrest_ts : ∀ x ∈ rest, event.timestamp ≤ x.timestamp := by
          intro x hx
          exact ts_le_of_not_eventLt (hmin x (hrestsub x hx))
        split at h
        · rename_i hback
          injection h with h
          subst h
          intro x hx
          rcases heappush_subset x hx with hx | hx
          · exact le_of_lt (lt_of_lt_of_le hback (hrest_ts x hx))
          · rw [hx]
            exact le_of_lt hback
        · rename_i hfwd
          rw [Option.bind_eq_some] at h
          obtain ⟨st2, hsa, hrun⟩ := h
          have hmid := scheduleAll_spec (handler event)
            { current_time := event.timestamp, queue := rest,
              events_processed := st.events_processed + 1 } st2 hresth hrest_ts hsa
          exact ih st2 untilT st' hmid.2.1 hmid.2.2 hrun
    · rename_i hcond
      injection h with h
      subst h
      intro x hx
      rcases Decidable.em (st.queue = []) with hq | hq
      · rw [hq] at hx
        simp at hx
      · have hctu : untilT ≤ st.current_time := by
          by_contra hcu
          exact hcond ⟨hq, lt_of_not_le hcu⟩
        exact hctu.trans (hts x hx)

/-- Concrete event with a given timestamp and target, all other fields at
their Python defaults. -/
def atEv (ts : Rat) (i : ActorId) : Event :=
  { timestamp := ts, target_id := i, payload := PayloadKind.command }

/-- Witness for C9: a run that stops by pushing back an event with
timestamp `7 > until = 5` leaves only that event, whose timestamp is
`≥ 5`. -/
theorem claim_C9_witness : (5 : Rat) ≤ (atEv 7 1).timestamp :=
  claim_C9_run_drains (fun _ => []) 2 ⟨0, [atEv 7 1], 0⟩ 5 ⟨0, [atEv 7 1], 0⟩
    (isHeap_singleton _) (by decide) rfl (atEv 7 1) (by decide)

/-- Counterexample to C9 as stated: with `current_time = until = 0` and a
queued event at timestamp `0 ≤ until`, `run(until)` returns at once (the
loop guard is `current_time < until`, strict) and the event — whose
timestamp ties at exactly `until` — remains queued undispatched, although
`until ≥ current_time`. -/
theorem claim_C9_counterexample :
    Simulator.run (fun _ => []) 1 ⟨0, [atEv 0 1], 0⟩ 0 = some ⟨0, [atEv 0 1], 0⟩ ∧
      atEv 0 1 ∈ [atEv 0 1] ∧ (atEv 0 1).timestamp ≤ 0 ∧ (0 : Rat) ≤ 0 := by
  refine ⟨?_, by decide, by decide, le_refl 0⟩
  rfl

/-! ## Claim C4 -/

/-- Claim C4 (amended): network-transmitted messages (`Network.deliver`),
send requests (`Actor.send`) and commands injected through
`Simulator.deliver_command` are all scheduled with `priority=0`; only
timers (`Actor.schedule_timer`) get `priority=1`.  Consequently at a tied
timestamp a network delivery is dispatched before a timer, but a
`deliver_command` command ties with network deliveries — it is priority 0,
not 1, and does not sort after them. -/
theorem claim_C4_event_priorities (t d : Rat) (netId sid dst tgt : ActorId) (k : Nat) :
    (networkDeliverEvent t d sid dst).priority = 0 ∧
    (sendEvent t netId sid dst).priority = 0 ∧
    (timerEvent t d sid k).priority = 1 ∧
    (deliverCommandEvent t tgt).priority = 0 ∧
    (∀ d2 : Rat, (networkDeliverEvent t d sid dst).timestamp =
        (timerEvent t d2 sid k).timestamp →
      eventLt (networkDeliverEvent t d sid dst) (timerEvent t d2 sid k)) ∧
    ¬ eventLt (networkDeliverEvent t d sid dst) (deliverCommandEvent (t + d) tgt) := by
  refine ⟨rfl, rfl, rfl, rfl, ?_, ?_⟩
  · intro d2 hts
    exact Or.inr ⟨hts, Or.inl (show (0 : Int) < 1 by decide)⟩
  · intro hlt
    rcases hlt with hlt | ⟨_, hlt | ⟨_, hlt⟩⟩
    · exact absurd hlt (lt_irrefl _)
    · exact absurd hlt (show ¬ (0 : Int) < 0 by decide)
    · exact absurd hlt (show ¬ (0 : Int) < 0 by decide)

/-- Witness for C4 at concrete values: a network delivery arriving at time
`0 + 1` sorts before a timer firing at the same instant. -/
theorem claim_C4_witness :
    eventLt (networkDeliverEvent 0 1 2 3) (timerEvent 0 1 2 0) :=
  (claim_C4_event_priorities 0 1 4 2 3 5 0).2.2.2.2.1 1 rfl

/-- Counterexample to C4 as stated: `deliver_command` builds its event with
`priority=0`, not 1; pushing a command (scheduled first) and a network
delivery at the same timestamp, the command pops first — the network
delivery is not dispatched before the local command. -/
theorem claim_C4_counterexample :
    (deliverCommandEvent 0 1).priority = 0 ∧ (deliverCommandEvent 0 1).priority ≠ 1 ∧
    heappop (heappush (heappush [] (deliverCommandEvent 0 1))
        (networkDeliverEvent 0 0 2 3)) =
      some (deliverCommandEvent 0 1, [networkDeliverEvent 0 0 2 3]) := by
  have hmsg : networkDeliverEvent 0 0 2 3 =
      ⟨0, 3, PayloadKind.message 2, 0, 0⟩ := by
    unfold networkDeliverEvent
    rw [add_zero]
  refine ⟨rfl, by decide, ?_⟩
  rw [hmsg]
  rfl

/-! ## Claim C5 -/

/-- Claim C5 (amended): kernel events compare lexicographically by
`(timestamp, priority, sequence)` — that much holds — but
`Simulator.schedule` never assigns a sequence number: the event is
heap-pushed verbatim (so every event keeps its default `sequence = 0`),
and among events tying on `(timestamp, priority, sequence)` the pop order
is heap order, not scheduling (FIFO) order. -/
theorem claim_C5_event_ordering :
    (∀ a b : Event, eventLt a b ↔
      (a.timestamp < b.timestamp ∨ (a.timestamp = b.timestamp ∧
        (a.priority < b.priority ∨
          (a.priority = b.priority ∧ a.sequence < b.sequence))))) ∧
    (∀ (st : SimState) (e : Event) (st' : SimState),
      Simulator.schedule st e = some st' →
        e ∈ st'.queue ∧ st'.queue.length = st.queue.length + 1 ∧
          ∀ x ∈ st'.queue, x ∈ st.queue ∨ x = e) := by
  constructor
  · intro a b
    exact Iff.rfl
  · intro st e st' h
    obtain ⟨_, _, hq⟩ := schedule_spec h
    rw [hq]
    exact ⟨heappush_mem st.queue e, heappush_length st.queue e,
      fun x hx => heappush_subset x hx⟩

/-- Witness for C5: scheduling an event from time 0 stores that very event
(sequence untouched) in the queue. -/
theorem claim_C5_witness :
    atEv 3 9 ∈ (SimState.mk 0 (heappush [] (atEv 3 9)) 0).queue ∧
      (SimState.mk 0 (heappush [] (atEv 3 9)) 0).queue.length =
        (SimState.mk 0 ([] : List Event) 0).queue.length + 1 :=
  ⟨(claim_C5_event_ordering.2 ⟨0, [], 0⟩ (atEv 3 9)
      ⟨0, heappush [] (atEv 3 9), 0⟩ rfl).1,
    (claim_C5_event_ordering.2 ⟨0, [], 0⟩ (atEv 3 9)
      ⟨0, heappush [] (atEv 3 9), 0⟩ rfl).2.1⟩

/-- Counterexample to C5 as stated: four events with identical
`(timestamp, priority, sequence) = (0, 0, 0)` scheduled in order
1, 2, 3, 4 (they are distinguished only by their compare-disabled
`target_id`).  All four keep `sequence = 0` — no counter is assigned — and
the heap pops event 1 and then event 3, not event 2: not FIFO. -/
theorem claim_C5_counterexample :
    (atEv 0 1).sequence = 0 ∧ (atEv 0 2).sequence = 0 ∧
      (atEv 0 3).sequence = 0 ∧ (atEv 0 4).sequence = 0 ∧
    heappush (heappush (heappush (heappush [] (atEv 0 1)) (atEv 0 2))
        (atEv 0 3)) (atEv 0 4) =
      [atEv 0 1, atEv 0 2, atEv 0 3, atEv 0 4] ∧
    heappop [atEv 0 1, atEv 0 2, atEv 0 3, atEv 0 4] =
      some (atEv 0 1, [atEv 0 3, atEv 0 2, atEv 0 4]) ∧
    heappop [atEv 0 3, atEv 0 2, atEv 0 4] =
      some (atEv 0 3, [atEv 0 2, atEv 0 4]) := by
  refine ⟨rfl, rfl, rfl, rfl, rfl, ?_, ?_⟩ <;> rfl

/-! ## Block production (`actors/block_producer.py`) -/

/-- Stable insertion of an entry into a list already sorted by descending
`effective_tip`: the entry goes before the first element with a tip not
above its own, so earlier-inserted equal-tip entries stay in front —
Python's stable `sorted(..., reverse=True)`. -/
def insertByTip (e : BlobTxEntry) : List BlobTxEntry → List BlobTxEntry
  | [] => [e]
  | x :: xs =>
    if x.effective_tip ≤ e.effective_tip then e :: x :: xs
    else x :: insertByTip e xs

/-- Stable sort by descending `effective_tip`. -/
def sortByTipDesc : List BlobTxEntry → List BlobTxEntry
  | [] => []
  | e :: es => insertByTip e (sortByTipDesc es)

/-- `Blobpool.iter_by_priority`: `sorted(self._txs.values(),
key=lambda e: e.effective_tip, reverse=True)` — descending tip, ties in
dict-insertion order (Python's sort is stable). -/
def Blobpool.iter_by_priority (p : Blobpool) : List BlobTxEntry :=
  sortByTipDesc (p.txs.map Prod.snd)

/-- `config.InclusionPolicy`. -/
inductive InclusionPolicy where
  | conservative
  | optimistic
  | proactive
deriving DecidableEq

/-- `bin(mask).count("1")`: population count; the fuel argument (the number
itself) dominates the bit length, so the count is exact. -/
def popCountAux : Nat → Nat → Nat
  | 0, _ => 0
  | fuel + 1, n => if n = 0 then 0 else n % 2 + popCountAux fuel (n / 2)

def BlobTxEntry.available_column_count (e : BlobTxEntry) : Nat :=
  popCountAux e.cell_mask e.cell_mask

/-- `BlockProducer._is_includable`. -/
def isIncludable (policy : InclusionPolicy) (tx : BlobTxEntry) : Bool :=
  match policy with
  | InclusionPolicy.conservative => decide tx.has_full_availability
  | InclusionPolicy.optimistic => decide (0 < tx.available_column_count)
  | InclusionPolicy.proactive => decide tx.has_full_availability

/-- The `for tx in candidates` loop of `BlockProducer._select_blobs`: keep
every candidate whose `blob_count` still fits in the remaining budget and
keep scanning after a miss. -/
def selectBlobsLoop (maxBlobs : Int) : List BlobTxEntry → Int → List BlobTxEntry
  | [], _ => []
  | tx :: rest, blob_count =>
    if blob_count + tx.blob_count ≤ maxBlobs then
      tx :: selectBlobsLoop maxBlobs rest (blob_count + tx.blob_count)
    else
      selectBlobsLoop maxBlobs rest blob_count

/-- `BlockProducer._select_blobs`. -/
def selectBlobs (cfg : SimConfig) (policy : InclusionPolicy) (p : Blobpool) :
    List BlobTxEntry :=
  selectBlobsLoop cfg.max_blobs_per_block
    (List.filter (isIncludable policy) (Blobpool.iter_by_priority p)) 0

def sumBlobs (l : List BlobTxEntry) : Int := (l.map BlobTxEntry.blob_count).sum

/-- The claim's packing rule, modelled from the spec's words for
comparison: take the maximal prefix of the candidate list whose cumulative
`blob_count` stays within the limit, stopping at the first misfit. -/
def specPrefixPack (maxBlobs : Int) : List BlobTxEntry → Int → List BlobTxEntry
  | [], _ => []
  | tx :: rest, acc =>
    if acc + tx.blob_count ≤ maxBlobs then
      tx :: specPrefixPack maxBlobs rest (acc + tx.blob_count)
    else []

theorem selectBlobsLoop_spec (maxBlobs : Int) :
    ∀ (l : List BlobTxEntry) (acc : Int),
      List.Sublist (selectBlobsLoop maxBlobs l acc) l ∧
        acc + sumBlobs (selectBlobsLoop maxBlobs l acc) ≤ max acc maxBlobs := by
  intro l
  induction l with
  | nil =>
    intro acc
    refine ⟨List.Sublist.refl _, ?_⟩
    simp only [selectBlobsLoop, sumBlobs, List.map_nil, List.sum_nil, add_zero]
    exact le_max_left _ _
  | cons tx rest ih =>
    intro acc
    unfold selectBlobsLoop
    split
    · rename_i hfit
      refine ⟨List.Sublist.cons₂ tx (ih _).1, ?_⟩
      have hb := (ih (acc + tx.blob_count)).2
      rw [max_eq_right hfit] at hb
      have hsum : sumBlobs (tx :: selectBlobsLoop maxBlobs rest (acc + tx.blob_count)) =
          tx.blob_count + sumBlobs (selectBlobsLoop maxBlobs rest (acc + tx.blob_count)) := by
        simp [sumBlobs]
      rw [hsum]
      have hle : acc + (tx.blob_count +
          sumBlobs (selectBlobsLoop maxBlobs rest (acc + tx.blob_count))) ≤ maxBlobs := by
        omega
      exact hle.trans (le_max_right _ _)
    · rename_i hfit
      exact ⟨List.Sublist.cons tx (ih acc).1, (ih acc).2⟩

/-- Claim C6 (amended): the proposer takes the policy-filtered candidates
in descending `effective_tip` order and greedily keeps every candidate
whose `blob_count` still fits, continuing to scan past any oversized
candidate.  The selection is a sublist of the candidate list with total
blob count at most `max_blobs_per_block`, but it is not in general the
maximal fitting prefix of the priority-ordered candidate list. -/
theorem claim_C6_block_packing (cfg : SimConfig) (policy : InclusionPolicy)
    (p : Blobpool) :
    List.Sublist (selectBlobs cfg policy p)
        (List.filter (isIncludable policy) (Blobpool.iter_by_priority p)) ∧
      (0 ≤ cfg.max_blobs_per_block →
        sumBlobs (selectBlobs cfg policy p) ≤ cfg.max_blobs_per_block) := by
  unfold selectBlobs
  constructor
  · exact (selectBlobsLoop_spec cfg.max_blobs_per_block _ 0).1
  · intro hmax
    have hb := (selectBlobsLoop_spec cfg.max_blobs_per_block
      (List.filter (isIncludable policy) (Blobpool.iter_by_priority p)) 0).2
    rw [max_eq_right hmax] at hb
    omega

def cexC6e1 : BlobTxEntry := mkEntry 1 1 0 10 10 100 5

def cexC6e2 : BlobTxEntry := mkEntry 2 2 0 10 9 100 3

def cexC6e3 : BlobTxEntry := mkEntry 3 3 0 10 8 100 1

def cexC6pool : Blobpool :=
  runOps cexC2cfg
    [PoolOp.addOp cexC6e1, PoolOp.addOp cexC6e2, PoolOp.addOp cexC6e3]

/-- Witness for C6 at a concrete pool: the selected total stays within the
6-blob budget. -/
theorem claim_C6_witness :
    sumBlobs (selectBlobs cexC2cfg InclusionPolicy.conservative cexC6pool) ≤
      cexC2cfg.max_blobs_per_block :=
  (claim_C6_block_packing cexC2cfg InclusionPolicy.conservative cexC6pool).2
    (by decide)

/-- Counterexample to C6 as stated: candidates with blob counts 5, 3, 1 in
descending tip order and a 6-blob budget.  The maximal fitting prefix is
just the first candidate, but the code skips the 3-blob candidate and
still packs the 1-blob one: the selection is not a prefix of the
priority-ordered candidate list. -/
theorem claim_C6_counterexample :
    Blobpool.iter_by_priority cexC6pool = [cexC6e1, cexC6e2, cexC6e3] ∧
      List.filter (isIncludable InclusionPolicy.conservative)
          (Blobpool.iter_by_priority cexC6pool) = [cexC6e1, cexC6e2, cexC6e3] ∧
      selectBlobs cexC2cfg InclusionPolicy.conservative cexC6pool =
        [cexC6e1, cexC6e3] ∧
      specPrefixPack cexC2cfg.max_blobs_per_block
          [cexC6e1, cexC6e2, cexC6e3] 0 = [cexC6e1] ∧
      selectBlobs cexC2cfg InclusionPolicy.conservative cexC6pool ≠
        specPrefixPack cexC2cfg.max_blobs_per_block [cexC6e1, cexC6e2, cexC6e3] 0 := by
  refine ⟨rfl, rfl, rfl, rfl, by decide⟩

/-! ## CoDel virtual-queue delay (`core/network.py`)

Floats are modelled as rationals; `math.sqrt`, applied only to the integer
`drop_count` (or to `max(1, drop_count)`), is abstracted as a parameter
`sq : Int → Rat`; Python's `x * 0.5` is written `x / 2`. -/

structure CoDelState where
  queue_bytes : Rat
  queue_start_time : Rat
  drop_count : Int
  last_drop_time : Rat
deriving DecidableEq

structure CoDelConfig where
  target_delay : Rat
  interval : Rat
  max_queue_bytes : Int
  drain_rate : Rat
deriving DecidableEq

/-- `CoDelConfig()` defaults: `target_delay=0.005`, `interval=0.100`,
`max_queue_bytes=10*1024*1024`, `drain_rate=100*1024*1024`. -/
def codelDefaults : CoDelConfig :=
  { target_delay := 1 / 200, interval := 1 / 10,
    max_queue_bytes := 10485760, drain_rate := 104857600 }

/-- The drain stage of `Network._codel_delay`: only when the queue is
non-empty, the start time non-negative and some time has elapsed; the drop
count resets exactly when the subtraction empties the queue. -/
def codelDrain (config : CoDelConfig) (current_time : Rat)
    (state : CoDelState) : CoDelState :=
  if 0 < state.queue_bytes ∧ 0 ≤ state.queue_start_time then
    if 0 < current_time - state.queue_start_time then
      { state with
        queue_bytes := max 0 (state.queue_bytes -
          (current_time - state.queue_start_time) * config.drain_rate),
        drop_count :=
          if max 0 (state.queue_bytes -
              (current_time - state.queue_start_time) * config.drain_rate) = 0 then 0
          else state.drop_count }
    else state
  else state

/-- The enqueue stage: add the message bytes, stamp the start time, cap at
`max_queue_bytes` (tail drop). -/
def codelEnqueue (config : CoDelConfig) (current_time : Rat) (size_bytes : Int)
    (state : CoDelState) : CoDelState :=
  { state with
    queue_bytes :=
      if (config.max_queue_bytes : Rat) < state.queue_bytes + (size_bytes : Rat) then
        (config.max_queue_bytes : Rat)
      else state.queue_bytes + (size_bytes : Rat),
    queue_start_time := current_time }

/-- The sojourn test and backoff stage of `Network._codel_delay`, applied to
the drained-and-enqueued state: above target, possibly bump `drop_count`
under the √-interval control law and scale the sojourn; at or below target,
decrement `drop_count` only when the sojourn is strictly below half the
target. -/
def codelFinish (sq : Int → Rat) (config : CoDelConfig) (current_time : Rat)
    (state : CoDelState) : Rat × CoDelState :=
  if config.target_delay < state.queue_bytes / config.drain_rate then
    if config.interval / sq (max 1 state.drop_count) <
        current_time - state.last_drop_time then
      (state.queue_bytes / config.drain_rate *
          (1 + (if 0 < state.drop_count + 1 then sq (state.drop_count + 1) else 0) / 2),
        { state with
          drop_count := state.drop_count + 1
          last_drop_time := current_time })
    else
      (state.queue_bytes / config.drain_rate *
          (1 + (if 0 < state.drop_count then sq state.drop_count else 0) / 2),
        state)
  else
    if 0 < state.drop_count ∧
        state.queue_bytes / config.drain_rate < config.target_delay / 2 then
      (state.queue_bytes / config.drain_rate,
        { state with drop_count := max 0 (state.drop_count - 1) })
    else
      (state.queue_bytes / config.drain_rate, state)

/-- `Network._codel_delay`: returns the extra delay and the updated per-link
state. -/
def codelDelay (sq : Int → Rat) (config : CoDelConfig) (current_time : Rat)
    (size_bytes : Int) (state : CoDelState) : Rat × CoDelState :=
  codelFinish sq config current_time
    (codelEnqueue config current_time size_bytes (codelDrain config current_time state))

/-- The sojourn the message sees: queue bytes after drain and enqueue over
the drain rate. -/
def codelSojournAfter (config : CoDelConfig) (current_time : Rat)
    (size_bytes : Int) (state : CoDelState) : Rat :=
  (codelEnqueue config current_time size_bytes
    (codelDrain config current_time state)).queue_bytes / config.drain_rate

/-- Step 1-3 of the claim's five-step rule, modelled from the spec's words:
drain unconditionally by `elapsed × drain_rate`, reset `drop_count` when
the queue reaches zero, enqueue capped at `max_queue_bytes`, stamp the
start time. -/
def specDrainQB (config : CoDelConfig) (current_time : Rat)
    (state : CoDelState) : Rat :=
  max 0 (state.queue_bytes -
    (current_time - state.queue_start_time) * config.drain_rate)

def specMidState (config : CoDelConfig) (current_time : Rat) (size_bytes : Int)
    (state : CoDelState) : CoDelState :=
  { queue_bytes := min (specDrainQB config current_time state + (size_bytes : Rat))
      ((config.max_queue_bytes : Rat)),
    queue_start_time := current_time,
    drop_count := if specDrainQB config current_time state = 0 then 0
      else state.drop_count,
    last_drop_time := state.last_drop_time }

/-- Steps 4-5 of the claim's five-step rule, modelled from the spec's
words: on `s > target` apply the √-interval control law and return
`s × (1 + 0.5 × √drop_count)`; otherwise, when `s ≤ target × 0.5` and
`drop_count > 0`, decrement `drop_count` and return `s`. -/
def codelSpecFinish (sq : Int → Rat) (config : CoDelConfig) (current_time : Rat)
    (state : CoDelState) : Rat × CoDelState :=
  if config.target_delay < state.queue_bytes / config.drain_rate then
    if config.interval / sq (max 1 state.drop_count) <
        current_time - state.last_drop_time then
      (state.queue_bytes / config.drain_rate * (1 + sq (state.drop_count + 1) / 2),
        { state with
          drop_count := state.drop_count + 1
          last_drop_time := current_time })
    else
      (state.queue_bytes / config.drain_rate * (1 + sq state.drop_count / 2), state)
  else
    if state.queue_bytes / config.drain_rate ≤ config.target_delay / 2 ∧
        0 < state.drop_count then
      (state.queue_bytes / config.drain_rate,
        { state with drop_count := state.drop_count - 1 })
    else
      (state.queue_bytes / config.drain_rate, state)

/-- The claim's five-step rule assembled, modelled from the spec's words. -/
def codelSpecDelay (sq : Int → Rat) (config : CoDelConfig) (current_time : Rat)
    (size_bytes : Int) (state : CoDelState) : Rat × CoDelState :=
  codelSpecFinish sq config current_time
    (specMidState config current_time size_bytes state)

theorem codel_mid_eq (config : CoDelConfig) (current_time : Rat)
    (size_bytes : Int) (state : CoDelState)
    (h1 : 0 ≤ state.queue_start_time) (h2 : state.queue_start_time ≤ current_time)
    (h3 : 0 < state.queue_bytes) :
    codelEnqueue config current_time size_bytes (codelDrain config current_time state) =
      specMidState config current_time size_bytes state := by
  unfold codelDrain
  rw [if_pos ⟨h3, h1⟩]
  by_cases helapsed : 0 < current_time - state.queue_start_time
  · rw [if_pos helapsed]
    unfold codelEnqueue specMidState specDrainQB
    have hmin : ∀ a b : Rat, (if b < a then b else a) = min a b := by
      intro a b
      rw [min_def]
      rcases le_or_lt a b with hab | hab
      · rw [if_neg (not_lt.mpr hab), if_pos hab]
      · rw [if_pos hab, if_neg (not_le.mpr hab)]
    simp only []
    rw [hmin]
  · rw [if_neg helapsed]
    have he : current_time - state.queue_start_time = 0 :=
      le_antisymm (not_lt.mp helapsed) (sub_nonneg.mpr h2)
    unfold codelEnqueue specMidState specDrainQB
    rw [he]
    have hq : max 0 (state.queue_bytes - 0 * config.drain_rate) = state.queue_bytes := by
      rw [zero_mul, sub_zero]
      exact max_eq_right (le_of_lt h3)
    rw [hq, if_neg (ne_of_gt h3)]
    have hmin : ∀ a b : Rat, (if b < a then b else a) = min a b := by
      intro a b
      rw [min_def]
      rcases le_or_lt a b with hab | hab
      · rw [if_neg (not_lt.mpr hab), if_pos hab]
      · rw [if_pos hab, if_neg (not_le.mpr hab)]
    rw [hmin]

theorem codelFinish_eq_spec (sq : Int → Rat) (config : CoDelConfig)
    (current_time : Rat) (st : CoDelState)
    (hsq : sq 0 = 0) (hdrop : 0 ≤ st.drop_count)
    (hb : st.queue_bytes / config.drain_rate ≠ config.target_delay / 2) :
    codelFinish sq config current_time st = codelSpecFinish sq config current_time st := by
  unfold codelFinish codelSpecFinish
  by_cases htgt : config.target_delay < st.queue_bytes / config.drain_rate
  · rw [if_pos htgt, if_pos htgt]
    by_cases hint : config.interval / sq (max 1 st.drop_count) <
        current_time - st.last_drop_time
    · rw [if_pos hint, if_pos hint, if_pos (by omega : (0:Int) < st.drop_count + 1)]
    · rw [if_neg hint, if_neg hint]
      rcases lt_or_eq_of_le hdrop with hpos | hzero
      · rw [if_pos hpos]
      · rw [if_neg (by omega : ¬ (0:Int) < st.drop_count), ← hzero, hsq]
  · rw [if_neg htgt, if_neg htgt]
    by_cases hpos : 0 < st.drop_count
    · by_cases hhalf : st.queue_bytes / config.drain_rate < config.target_delay / 2
      · rw [if_pos ⟨hpos, hhalf⟩, if_pos ⟨le_of_lt hhalf, hpos⟩,
          max_eq_right (by omega : (0:Int) ≤ st.drop_count - 1)]
      · have hnle : ¬ st.queue_bytes / config.drain_rate ≤ config.target_delay / 2 :=
          fun hle => hhalf (lt_of_le_of_ne hle hb)
        rw [if_neg (fun hc => hhalf hc.2), if_neg (fun hc => hnle hc.1)]
    · rw [if_neg (fun hc => hpos hc.1), if_neg (fun hc => hpos hc.2)]

/-- Claim C7 (amended): away from two boundary situations the code follows
the claim's five steps, with these corrections: the drain stage runs only
for a non-empty queue with non-negative elapsed time (equivalent under the
stated hypotheses), and in the final step the decrement fires only for a
sojourn strictly below `target × 0.5` — at a sojourn of exactly
`target × 0.5` the claim's `≤` rule decrements but the code does not. -/
theorem claim_C7_codel_rule (sq : Int → Rat) (config : CoDelConfig)
    (current_time : Rat) (size_bytes : Int) (state : CoDelState)
    (hsq : sq 0 = 0)
    (h1 : 0 ≤ state.queue_start_time) (h2 : state.queue_start_time ≤ current_time)
    (h3 : 0 < state.queue_bytes) (h5 : 0 ≤ state.drop_count)
    (hb : codelSojournAfter config current_time size_bytes state ≠
      config.target_delay / 2) :
    codelDelay sq config current_time size_bytes state =
      codelSpecDelay sq config current_time size_bytes state := by
  unfold codelDelay codelSpecDelay
  rw [codel_mid_eq config current_time size_bytes state h1 h2 h3]
  apply codelFinish_eq_spec
  · exact hsq
  · unfold specMidState
    dsimp only
    split
    · exact le_refl 0
    · exact h5
  · unfold codelSojournAfter at hb
    rw [codel_mid_eq config current_time size_bytes state h1 h2 h3] at hb
    exact hb

def cexSq (n : Int) : Rat := n

def cexC7state0 : CoDelState :=
  { queue_bytes := 1048576, queue_start_time := 0, drop_count := 0,
    last_drop_time := 0 }

def cexC7state1 : CoDelState :=
  { queue_bytes := 1048576, queue_start_time := 1, drop_count := 1,
    last_drop_time := 1 }

/-- Witness for C7 at concrete values: a 1 MiB message on a fresh queue at
time 1 (sojourn 1/100, away from the half-target boundary) follows the
amended five-step rule. -/
theorem claim_C7_witness :
    codelDelay cexSq codelDefaults 1 1048576 cexC7state0 =
      codelSpecDelay cexSq codelDefaults 1 1048576 cexC7state0 :=
  claim_C7_codel_rule cexSq codelDefaults 1 1048576 cexC7state0
    (by norm_num [cexSq]) (by norm_num [cexC7state0]) (by norm_num [cexC7state0])
    (by norm_num [cexC7state0]) (by norm_num [cexC7state0])
    (by norm_num [codelSojournAfter, codelEnqueue, codelDrain, codelDefaults,
      cexC7state0])

/-- Counterexample to C7 as stated: at time `1 + 7/800` a 128 KiB message
finds the drained queue at 128 KiB, so the sojourn is exactly
`1/400 = target × 0.5` with `drop_count = 1`.  The claim's step 5 (`s ≤
target × 0.5`) decrements `drop_count` to 0; the code's strict `<` keeps it
at 1. -/
theorem claim_C7_counterexample :
    (codelDelay cexSq codelDefaults (1 + 7 / 800) 131072 cexC7state1).2.drop_count = 1 ∧
      (codelSpecDelay cexSq codelDefaults (1 + 7 / 800) 131072
        cexC7state1).2.drop_count = 0 ∧
      codelSojournAfter codelDefaults (1 + 7 / 800) 131072 cexC7state1 =
        codelDefaults.target_delay / 2 := by
  refine ⟨?_, ?_, ?_⟩ <;>
    norm_num [codelDelay, codelDrain, codelEnqueue, codelFinish, codelSpecDelay,
      codelSpecFinish, specMidState, specDrainQB, codelSojournAfter, codelDefaults,
      cexC7state1, cexSq]

/-! ## Node cell-fetch state machine (`p2p/node.py`) -/

inductive Role where
  | provider
  | sampler
deriving DecidableEq

inductive TxState where
  | announced
  | awaitingProviders
  | fetchingTx
  | fetchingCells
  | complete
deriving DecidableEq

inductive ReqType where
  | tx
  | cells
deriving DecidableEq

structure PendingTx where
  tx_hash : TxHash
  role : Role
  state : TxState
  provider_peers : List ActorId
  sampler_peers : List ActorId
  tx_body_received : Bool
  cells_received : Nat
  pending_request_id : Option Int
  first_seen : Rat
deriving DecidableEq

structure PendingRequest where
  request_id : Int
  tx_hash : TxHash
  target_peer : ActorId
  request_type : ReqType
  sent_at : Rat
deriving DecidableEq

/-- The `Node` fields driving the cell-fetch state machine. -/
structure NodeState where
  peers : List ActorId
  custody_mask : Nat
  pending_txs : List (TxHash × PendingTx)
  pending_requests : List (Int × PendingRequest)
  pool : Blobpool
  next_request_id : Int
deriving DecidableEq

/-- `Address(f"0x{tx_hash[:40]}")` of `Node._complete_tx`: the fake sender
derived from the hash, modelled as the hash itself (an injective image). -/
def deriveSender (h : TxHash) : Address := h

/-- `Node._announce_tx`: sends an announcement to every peer not yet in
`entry.announced_to` and records it there; the entry lives in the pool, so
the pool's stored entry is updated. -/
def announceTx (peers : List ActorId) (p : Blobpool) (h : TxHash) : Blobpool :=
  match dictGet p.txs h with
  | none => p
  | some e =>
    { p with
      txs := dictSet p.txs h
        { e with
          announced_to :=
            e.announced_to ++ peers.filter (fun pe => ! e.announced_to.contains pe) } }

/-- The minimal pool entry `Node._complete_tx` builds (hard-coded fee
fields, default-size single blob, fake sender derived from the hash). -/
def completeEntry (h : TxHash) (now : Rat) (mask : Nat) : BlobTxEntry :=
  { tx_hash := h, sender := deriveSender h, nonce := 0, gas_fee_cap := 1000000000,
    gas_tip_cap := 100000000, blob_gas_price := 1000000, tx_size := 131072,
    blob_count := 1, cell_mask := mask, received_at := now, announced_to := [] }

/-- `Node._complete_tx`: pop the pending entry, `pool.add` the minimal
entry swallowing `RBFRejected`, `SenderLimitExceeded` and `PoolFull` (the
pool keeps whatever state `add` left), and announce on success. -/
def completeTx (cfg : SimConfig) (now : Rat) (st : NodeState) (h : TxHash)
    (mask : Nat) : NodeState :=
  match dictGet st.pending_txs h with
  | none => st
  | some _ =>
    { st with
      pending_txs := dictRemove st.pending_txs h
      pool :=
        match Blobpool.add cfg st.pool (completeEntry h now mask) with
        | (p', AddOutcome.ok _ _) => announceTx st.peers p' h
        | (p', _) => p' }

/-- The state after the unconditional part of one `_handle_cells`
iteration: the pending request (if any) is popped and forgotten, and the
response mask is OR-ed into `cells_received`. -/
def cellsMidState (st : NodeState) (h : TxHash) (pending : PendingTx)
    (mask : Nat) : NodeState :=
  { st with
    pending_requests :=
      match pending.pending_request_id with
      | none => st.pending_requests
      | some rid => dictRemove st.pending_requests rid
    pending_txs := dictSet st.pending_txs h
      { pending with
        pending_request_id := none
        cells_received := pending.cells_received ||| mask } }

/-- One iteration of the `for tx_hash in msg.tx_hashes` loop of
`Node._handle_cells`: clear the pending request, accumulate the mask into
`cells_received`, then complete — for a provider only when this single
response's mask is `ALL_ONES`, for a sampler when the accumulated bitmap
covers the custody columns. -/
def handleCellsOne (cfg : SimConfig) (now : Rat) (mask : Nat) (st : NodeState)
    (h : TxHash) : NodeState :=
  match dictGet st.pending_txs h with
  | none => st
  | some pending =>
    match pending.role with
    | Role.provider =>
      if mask = ALL_ONES then
        completeTx cfg now (cellsMidState st h pending mask) h ALL_ONES
      else cellsMidState st h pending mask
    | Role.sampler =>
      if (pending.cells_received ||| mask) &&& st.custody_mask = st.custody_mask then
        completeTx cfg now (cellsMidState st h pending mask) h
          (pending.cells_received ||| mask)
      else cellsMidState st h pending mask

/-- `Node._handle_cells`. -/
def handleCells (cfg : SimConfig) (now : Rat) (st : NodeState)
    (tx_hashes : List TxHash) (mask : Nat) : NodeState :=
  tx_hashes.foldl (handleCellsOne cfg now mask) st

/-- `Node._handle_request_timeout`: pop the request first — a missing
request means the response already arrived and the timeout is a no-op —
then, for a `tx` request, retry on another peer (`next(iter(...))` set
iteration is abstracted by `pick`) or give up; for a `cells` request, drop
the pending transaction. -/
def handleRequestTimeout (pick : List ActorId → Option ActorId) (now : Rat)
    (st : NodeState) (request_id : Int) : NodeState :=
  match dictGet st.pending_requests request_id with
  | none => st
  | some request =>
    let st1 : NodeState :=
      { st with pending_requests := dictRemove st.pending_requests request_id }
    match dictGet st1.pending_txs request.tx_hash with
    | none => st1
    | some pending =>
      match request.request_type with
      | ReqType.tx =>
        match pick ((pending.provider_peers ++ pending.sampler_peers).filter
            (fun pe => pe ≠ request.target_peer)) with
        | some new_peer =>
          { st1 with
            next_request_id := st1.next_request_id + 1
            pending_txs := dictSet st1.pending_txs request.tx_hash
              { pending with pending_request_id := some st1.next_request_id }
            pending_requests := dictSet st1.pending_requests st1.next_request_id
              { request_id := st1.next_request_id, tx_hash := request.tx_hash,
                target_peer := new_peer, request_type := ReqType.tx,
                sent_at := now } }
        | none =>
          { st1 with pending_txs := dictRemove st1.pending_txs request.tx_hash }
      | ReqType.cells =>
        { st1 with pending_txs := dictRemove st1.pending_txs request.tx_hash }

/-- Claim C10 (amended): a provider-role pending transaction completes only
when one single `Cells` response carries `cell_mask = ALL_ONES` (that case
does remove it from `_pending_txs`); on any partial response the
accumulated `cells_received` bitmap is not consulted — the transaction
stays pending with its state unchanged even if the accumulated bitmap now
covers all columns — and the handler also clears the pending request, so
the scheduled request timeout finds no request and is a no-op: contrary to
the claim, the transaction is never dropped by the timeout. -/
theorem claim_C10_provider_completion (cfg : SimConfig) (now : Rat)
    (st : NodeState) (mask : Nat) (h : TxHash) (pending : PendingTx)
    (hndtx : nodupKeys st.pending_txs) (hndreq : nodupKeys st.pending_requests)
    (hp : dictGet st.pending_txs h = some pending)
    (hrole : pending.role = Role.provider) :
    (mask ≠ ALL_ONES →
      dictGet (handleCellsOne cfg now mask st h).pending_txs h =
        some { pending with
               pending_request_id := none
               cells_received := pending.cells_received ||| mask }) ∧
    (mask ≠ ALL_ONES → ∀ rid, pending.pending_request_id = some rid →
      dictGet (handleCellsOne cfg now mask st h).pending_requests rid = none) ∧
    (mask = ALL_ONES →
      dictGet (handleCellsOne cfg now mask st h).pending_txs h = none) ∧
    (∀ (pick : List ActorId → Option ActorId) (rid : Int),
      dictGet st.pending_requests rid = none →
      handleRequestTimeout pick now st rid = st) := by
  have hstep : handleCellsOne cfg now mask st h =
      if mask = ALL_ONES then
        completeTx cfg now (cellsMidState st h pending mask) h ALL_ONES
      else cellsMidState st h pending mask := by
    unfold handleCellsOne
    simp only [hp, hrole]
  refine ⟨?_, ?_, ?_, ?_⟩
  · intro hmask
    rw [hstep, if_neg hmask]
    unfold cellsMidState
    exact dictGet_dictSet_self
  · intro hmask rid hrid
    rw [hstep, if_neg hmask]
    unfold cellsMidState
    simp only [hrid]
    exact dictGet_dictRemove_self hndreq
  · intro hmask
    rw [hstep, if_pos hmask]
    unfold completeTx
    have hmid : dictGet (cellsMidState st h pending mask).pending_txs h =
        some { pending with
               pending_request_id := none
               cells_received := pending.cells_received ||| mask } := by
      unfold cellsMidState
      exact dictGet_dictSet_self
    rw [hmid]
    unfold cellsMidState
    exact dictGet_dictRemove_self (nodupKeys_dictSet h _ hndtx)
  · intro pick rid hrid
    unfold handleRequestTimeout
    rw [hrid]

def cexC10pending : PendingTx :=
  { tx_hash := 5, role := Role.provider, state := TxState.fetchingCells,
    provider_peers := [], sampler_peers := [], tx_body_received := false,
    cells_received := 0, pending_request_id := some 1, first_seen := 0 }

def cexC10req : PendingRequest :=
  { request_id := 1, tx_hash := 5, target_peer := 2, request_type := ReqType.cells,
    sent_at := 0 }

def cexC10st0 : NodeState :=
  { peers := [], custody_mask := 0, pending_txs := [(5, cexC10pending)],
    pending_requests := [(1, cexC10req)], pool := emptyPool, next_request_id := 2 }

/-- The low 64 columns. -/
def cexC10maskLo : Nat := (1 <<< 64) - 1

/-- The high 64 columns. -/
def cexC10maskHi : Nat := ALL_ONES - cexC10maskLo

/-- The state after two partial `Cells` responses whose masks union to
`ALL_ONES`. -/
def cexC10st2 : NodeState :=
  handleCellsOne cexCfg 0 cexC10maskHi
    (handleCellsOne cexCfg 0 cexC10maskLo cexC10st0 5) 5

instance {K V : Type} [DecidableEq K] (l : List (K × V)) :
    Decidable (nodupKeys l) := by
  unfold nodupKeys
  infer_instance

/-- Witness for C10 at a concrete provider node: a partial response leaves
the transaction pending with the mask accumulated and the request
cleared. -/
theorem claim_C10_witness :
    dictGet (handleCellsOne cexCfg 0 cexC10maskLo cexC10st0 5).pending_txs 5 =
      some { cexC10pending with
             pending_request_id := none
             cells_received := cexC10pending.cells_received ||| cexC10maskLo } :=
  (claim_C10_provider_completion cexCfg 0 cexC10st0 cexC10maskLo 5 cexC10pending
    (by decide) (by decide) (by decide) rfl).1 (by decide)

/-- Counterexample to C10's "until a request timeout drops it": two partial
responses whose masks union to all 128 columns leave the provider's
transaction in `FETCHING_CELLS` with `cells_received = ALL_ONES`, and the
first response already cleared the pending request, so the request timeout
for it is a no-op — the transaction is never dropped. -/
theorem claim_C10_counterexample :
    cexC10maskLo ||| cexC10maskHi = ALL_ONES ∧
      cexC10maskLo ≠ ALL_ONES ∧ cexC10maskHi ≠ ALL_ONES ∧
      dictGet cexC10st2.pending_txs 5 =
        some { cexC10pending with
               pending_request_id := none
               cells_received := ALL_ONES } ∧
      cexC10pending.state = TxState.fetchingCells ∧
      handleRequestTimeout (fun l => l.head?) 0 cexC10st2 1 = cexC10st2 := by
  decide

end SBP
